import Mathlib

/-!
Shallow embedding of `opentsdb/tsdb.go` (StackExchange scollector OpenTSDB
client): the query-string parser and serializer, tag sets, identifier
sanitization, time/duration resolution, and the request cache with
date normalization.

External collaborators are passed as parameters, mirroring the spec's
interface boundary: the duration-literal resolver (`ParseDuration`,
parameter `pd`), the standard library absolute-layout time parser
(`time.Parse`, parameter `tp`), JSON marshalling (`json.Marshal`,
parameter `marshal`), the HTTP transport (parameter `transport`), and
the Unicode letter/digit tables of `unicode.IsLetter`/`IsDigit`
(parameters `isL`/`isD`).

Time instants (`time.Time`) and durations (`time.Duration`) are both
modelled as `Int` nanoseconds; `Time.Unix()` is floor division by 10^9,
matching Go's normalized (sec, 0 ≤ nsec < 10^9) representation.
-/

namespace OpenTsdb

/-! ## Character classes of the query regexp
`^(\w+):(?:(\w+-\w+):)?(?:(rate.*):)?([\w./]+)(?:\{([\w./,=*-|]+)\})?$`
(RE2 Perl classes are ASCII-only). -/

/-- Go regexp `\w`: ASCII letters, digits and underscore. -/
def isW (c : Char) : Bool :=
  c.isAlpha || c.isDigit || c = '_'

/-- Character class `[\w./]` of the metric part. -/
def isMetricChar (c : Char) : Bool :=
  isW c || c = '.' || c = '/'

/-- Character class `[\w./,=*-|]` of the tag block: `\w`, `.`, `/`, `,`,
`=`, and the literal range from `*` (42) to `|` (124). -/
def isTagChar (c : Char) : Bool :=
  isW c || c = '.' || c = '/' || c = ',' || c = '=' || ('*' ≤ c && c ≤ '|')

/-- The literal characters of the `rate` token. -/
def rateChars : List Char := ['r', 'a', 't', 'e']

/-- The literal characters of the `-ago` relative-time marker. -/
def agoChars : List Char := ['-', 'a', 'g', 'o']

/-! ## The anchored regexp as a leftmost-first matcher

The pattern is deterministic except for the greedy `.*` inside
`(?:(rate.*):)?`, which commits to the longest prefix (ending at some
`:`) whose continuation matches the rest of the pattern, and for the
two optional groups, which are skipped when no completion matches. -/

/-- The tail of the pattern: `([\w./]+)(?:\{([\w./,=*-|]+)\})?$`.
Returns the metric and the tag-block content (`[]` when absent; the
content of a matched block is never empty since the class is `+`). -/
def tailMatch (l : List Char) : Option (List Char × List Char) :=
  let M := l.takeWhile isMetricChar
  if M.isEmpty then none
  else
    match l.dropWhile isMetricChar with
    | [] => some (M, [])
    | c :: r2 =>
      if c = '\x7b' then
        let T := r2.takeWhile isTagChar
        if T.isEmpty then none
        else
          match r2.dropWhile isTagChar with
          | [d] => if d = '\x7d' then some (M, T) else none
          | _ => none
      else none

/-- All ways of writing `l` as `pre ++ ':' :: post`, in order of
increasing `pre` length. -/
def splits : List Char → List (List Char × List Char)
  | [] => []
  | c :: cs =>
    (if c = ':' then [(([] : List Char), cs)] else []) ++
      (splits cs).map fun p => (c :: p.1, p.2)

/-- A split `pre ++ ':' ++ post` can serve as the `(rate.*):` group:
`pre` matches `rate.*` (literal `rate`, then any characters but a
newline) and the rest of the pattern matches `post`. -/
def validSplit (p : List Char × List Char) : Bool :=
  rateChars.isPrefixOf p.1 && p.1.all (fun c => c ≠ '\n') && (tailMatch p.2).isSome

/-- The optional `(?:(rate.*):)?` group followed by the pattern tail:
the greedy `.*` takes the longest valid split, and the group is skipped
when none exists. Returns (rate capture, metric, tag content). -/
def group3 (l : List Char) : Option (List Char × List Char × List Char) :=
  match ((splits l).filter validSplit).getLast? with
  | some (pre, post) =>
    match tailMatch post with
    | some (M, T) => some (pre, M, T)
    | none => none
  | none =>
    match tailMatch l with
    | some (M, T) => some ([], M, T)
    | none => none

/-- The optional `(?:(\w+-\w+):)?` group followed by the rest of the
pattern. The group's own shape (`\w+`, `-`, `\w+`, `:`) is forced by
the character classes; if it matches but no completion of the rest
does, the group is skipped. Returns (downsample, rate, metric, tags). -/
def group2rest (l : List Char) : Option (List Char × List Char × List Char × List Char) :=
  let w1 := l.takeWhile isW
  let try2 : Option (List Char × List Char × List Char × List Char) :=
    if w1.isEmpty then none
    else
      match l.dropWhile isW with
      | [] => none
      | c :: r2 =>
        if c = '-' then
          let w2 := r2.takeWhile isW
          if w2.isEmpty then none
          else
            match r2.dropWhile isW with
            | [] => none
            | d :: r4 =>
              if d = ':' then
                match group3 r4 with
                | some (m3, M, T) => some (w1 ++ '-' :: w2, m3, M, T)
                | none => none
              else none
        else none
  match try2 with
  | some x => some x
  | none =>
    match group3 l with
    | some (m3, M, T) => some ([], m3, M, T)
    | none => none

/-- The full anchored match of `qRE`: returns the five capture groups
(aggregator, downsample, rate spec, metric, tag content), with `[]`
for an absent optional capture. -/
def qMatch (l : List Char) :
    Option (List Char × List Char × List Char × List Char × List Char) :=
  let agg := l.takeWhile isW
  if agg.isEmpty then none
  else
    match l.dropWhile isW with
    | [] => none
    | c :: body =>
      if c = ':' then
        match group2rest body with
        | some (ds, m3, M, T) => some (agg, ds, m3, M, T)
        | none => none
      else none

/-! ## strconv.ParseInt and small string helpers -/

/-- Decimal value of a digit run. -/
def digitsVal (l : List Char) : Nat :=
  l.foldl (fun a c => a * 10 + (c.toNat - 48)) 0

def int64Max : Nat := 9223372036854775807

/-- `strconv.ParseInt(s, 10, 64)`: optional sign, a non-empty run of
decimal digits, value within int64 range. -/
def parseInt64 (l : List Char) : Except String Int :=
  let core : List Char → Bool → Except String Int := fun ds neg =>
    if ds.isEmpty || !(ds.all Char.isDigit) then
      .error ("strconv.ParseInt: parsing \"" ++ String.mk l ++ "\": invalid syntax")
    else
      let n := digitsVal ds
      if neg then
        if n ≤ int64Max + 1 then .ok (-(n : Int))
        else .error ("strconv.ParseInt: parsing \"" ++ String.mk l ++ "\": value out of range")
      else
        if n ≤ int64Max then .ok (n : Int)
        else .error ("strconv.ParseInt: parsing \"" ++ String.mk l ++ "\": value out of range")
  match l with
  | '+' :: rest => core rest false
  | '-' :: rest => core rest true
  | _ => core l false

/-- `strings.Split(s, sep)` for a one-character separator: never empty,
`[""]` on the empty string. -/
def splitOnChar (sep : Char) : List Char → List (List Char)
  | [] => [[]]
  | c :: cs =>
    if c = sep then [] :: splitOnChar sep cs
    else
      match splitOnChar sep cs with
      | [] => [[c]]
      | h :: t => (c :: h) :: t

/-- `strings.SplitN(v, "=", 2)` restricted to the two-part case: key is
everything before the first `=`, value everything after it; `none` when
`v` contains no `=` (Go then returns a one-element slice). -/
def splitEq (l : List Char) : Option (List Char × List Char) :=
  let k := l.takeWhile fun c => c ≠ '='
  match l.dropWhile fun c => c ≠ '=' with
  | [] => none
  | c :: v => if c = '=' then some (k, v) else none

/-- The ASCII fragment of `unicode.IsSpace` (the only whitespace that
can reach `strings.TrimSpace` from this package's callers). -/
def isSpaceGo (c : Char) : Bool :=
  c = ' ' || c = '\t' || c = '\n' || c = '\r' || c = '\x0b' || c = '\x0c'

/-- `strings.TrimSpace`. -/
def trimSpace (l : List Char) : List Char :=
  ((l.dropWhile isSpaceGo).reverse.dropWhile isSpaceGo).reverse

/-! ## TagSet -/

/-- `TagSet`: tag key/value pairs in insertion order (Go's
`map[string]string`; iteration order only matters for `Query.String`,
whose tag order the spec leaves free). -/
abbrev TagSet := List (String × String)

/-- `TagSet.Equal`: same cardinality and every binding of `t` present
in `o` with the same value. -/
def tagSetEqual (t o : TagSet) : Bool :=
  if t.length ≠ o.length then false
  else t.all fun kv =>
    match o.lookup kv.1 with
    | some ov => ov = kv.2
    | none => false

/-- `TagSet.Subset`: true iff every k=v pair of `o` is in `t`. -/
def TagSet.Subset (t o : TagSet) : Bool :=
  o.all fun kv =>
    match t.lookup kv.1 with
    | some tv => tv = kv.2
    | none => false

/-- The loop body of `ParseTags` over the comma-separated pairs:
split each pair at the first `=`, trim both sides, reject a missing
`=` or a duplicated key, insert in order. -/
def parseTagsParts : List (List Char) → TagSet → Except String TagSet
  | [], acc => .ok acc
  | v :: rest, acc =>
    match splitEq v with
    | none => .error ("tsdb: bad tag: " ++ String.mk v)
    | some (k0, v0) =>
      let k := String.mk (trimSpace k0)
      let vv := String.mk (trimSpace v0)
      match acc.lookup k with
      | some _ => .error ("tsdb: duplicated tag: " ++ String.mk v)
      | none => parseTagsParts rest (acc ++ [(k, vv)])

/-- `ParseTags`: parses `k=v,m=o` pairs. -/
def ParseTags (l : List Char) : Except String TagSet :=
  parseTagsParts (splitOnChar ',' l) []

/-! ## Query -/

structure RateOptions where
  Counter : Bool := false
  CounterMax : Int := 0
  ResetValue : Int := 0
deriving DecidableEq

structure Query where
  Aggregator : String := ""
  Metric : String := ""
  Rate : Bool := false
  RateOptions : RateOptions := ⟨false, 0, 0⟩
  Downsample : String := ""
  Tags : TagSet := []
deriving DecidableEq

/-- The rate-option block of `ParseQuery`: split `m[3]` on commas;
a second field marks counter mode; a non-empty third field is the
counter max; a fourth field is the reset value (always parsed). -/
def parseRateOpts (m3 : List Char) : Except String RateOptions :=
  let sp := splitOnChar ',' m3
  let counter := decide (1 < sp.length)
  match (if h : 2 < sp.length then
      (if (sp.get ⟨2, h⟩).isEmpty then .ok 0 else parseInt64 (sp.get ⟨2, h⟩))
    else Except.ok 0) with
  | .error e => .error e
  | .ok cmax =>
    match (if h : 3 < sp.length then parseInt64 (sp.get ⟨3, h⟩) else Except.ok (0 : Int)) with
    | .error e => .error e
    | .ok rv => .ok ⟨counter, cmax, rv⟩

/-- `ParseQuery`: match against `qRE`, then decode the rate spec and
the tag block. -/
def ParseQuery (query : String) : Except String Query :=
  match qMatch query.data with
  | none => .error ("tsdb: bad query format: " ++ query)
  | some (agg, ds, m3, M, T) =>
    let rate := rateChars.isPrefixOf m3
    match (if rate then parseRateOpts m3 else Except.ok ⟨false, 0, 0⟩) with
    | .error e => .error e
    | .ok ro =>
      match (if T.isEmpty then Except.ok ([] : TagSet) else ParseTags T) with
      | .error e => .error e
      | .ok tags =>
        .ok { Aggregator := String.mk agg, Metric := String.mk M, Rate := rate,
              RateOptions := ro, Downsample := String.mk ds, Tags := tags }

/-- The tag pairs of `Query.String`, joined with commas in iteration
order. -/
def tagsJoin : TagSet → List Char
  | [] => []
  | (k, v) :: rest =>
    k.data ++ '=' :: v.data ++ (if rest.isEmpty then [] else ',' :: tagsJoin rest)

/-- Join a list of chunks with a separator character (the inverse shape
of `splitOnChar`). -/
def joinSep (sep : Char) : List (List Char) → List Char
  | [] => []
  | p :: rest => p ++ (if rest.isEmpty then [] else sep :: joinSep sep rest)

/-- `Query.String`: `agg:[downsample:][rate:]metric[{k=v,...}]`. -/
def queryToString (q : Query) : String :=
  String.mk (q.Aggregator.data ++ ':' ::
    ((if q.Downsample.data.isEmpty then [] else q.Downsample.data ++ [':']) ++
      ((if q.Rate then rateChars ++ [':'] else []) ++
        (q.Metric.data ++
          (if q.Tags.isEmpty then []
           else '\x7b' :: (tagsJoin q.Tags ++ ['\x7d']))))))

/-! ## Clean -/

/-- The decode-filter loop of `Clean`: keep each code point that is a
letter, a digit, or one of `- _ . /`. The letter and digit tables
(`unicode.IsLetter`, `unicode.IsDigit`) are external parameters. -/
def cleanLoop (isL isD : Char → Bool) : List Char → List Char
  | [] => []
  | r :: rest =>
    if isL r || isD r || r = '-' || r = '_' || r = '.' || r = '/' then
      r :: cleanLoop isL isD rest
    else cleanLoop isL isD rest

/-- The character predicate of `Clean`'s loop, as a single test. -/
def cleanPred (isL isD : Char → Bool) (c : Char) : Bool :=
  isL c || isD c || c = '-' || c = '_' || c = '.' || c = '/'

/-- `Clean`: reject an empty input, filter, reject an empty result. -/
def Clean (isL isD : Char → Bool) (s : String) : Except String String :=
  if s.data.isEmpty then
    .error "Metric/Tagk/Tagv Cleaning Passed a Zero Length String"
  else
    let c := cleanLoop isL isD s.data
    if c.isEmpty then
      .error "Cleaning Metric/Tagk/Tagv resulted in a Zero Length String"
    else .ok (String.mk c)

/-- The textual tag block a metric is followed by: empty when there are
no tags, `{content}` otherwise. -/
def tagPart (T : List Char) : List Char :=
  if T.isEmpty then [] else '\x7b' :: (T ++ ['\x7d'])

/-! ## Time and duration resolution

Instants and durations are `Int` nanoseconds. Each call to Go's
`time.Now()` is an external input and appears as an explicit parameter
(`now`, `nowS`, `nowE`, `wS`, `wE`). -/

def nsPerSec : Int := 1000000000

/-- `Time.Unix()`: epoch seconds of an instant; Go normalizes to
(sec, 0 ≤ nsec < 10^9), so this is floor division. -/
def unixOf (t : Int) : Int := t.fdiv nsPerSec

def maxDuration : Int := 9223372036854775807

def minDuration : Int := -9223372036854775808

/-- `time.Time.Sub`: the difference of two instants as a
`time.Duration`, saturated to the int64 nanosecond range
(about ±292 years). -/
def timeSub (t u : Int) : Int :=
  if t - u < minDuration then minDuration
  else if maxDuration < t - u then maxDuration
  else t - u

/-- `⌊log2 n⌋` with explicit fuel (structural recursion, so concrete
instances reduce definitionally). -/
def log2F : Nat → Nat → Nat
  | 0, _ => 0
  | fuel + 1, n => if n ≤ 1 then 0 else log2F fuel (n / 2) + 1

/-- Round-half-even of the rational `a / b` (`b > 0`). -/
def rnde (a b : Nat) : Nat :=
  let q := a / b
  let r := a % b
  if 2 * r < b then q
  else if b < 2 * r then q + 1
  else if q % 2 = 0 then q else q + 1

/-- The IEEE-754 binary64 value nearest to the positive rational
`a / b` (normal range), as a dyadic pair `(m, E)` of value `m * 2^E`
with `2^52 ≤ m < 2^53`; `(0, 0)` for `a = 0`. -/
def normDouble (a b : Nat) : Nat × Int :=
  if a = 0 then (0, 0)
  else
    let e1 : Int := (log2F a a : Int) - log2F b b
    let ge : Bool := if 0 ≤ e1 then b * 2 ^ e1.toNat ≤ a else b ≤ a * 2 ^ (-e1).toNat
    let e : Int := if ge then e1 else e1 - 1
    let m0 : Nat := if e ≤ 52 then rnde (a * 2 ^ (52 - e).toNat) b
                    else rnde a (b * 2 ^ (e - 52).toNat)
    if m0 = 2 ^ 53 then (2 ^ 52, e - 51) else (m0, e - 52)

/-- Go `int64(d.Seconds())` for a non-negative duration `d` in
nanoseconds (the only case `AutoDownsample` evaluates it: `d ≥ 15 s`):
`Duration.Seconds` returns `float64(sec) + float64(nsec)/1e9` —
`float64(sec)` is exact here since `sec < 2^34`, `float64(nsec)` and
`1e9` are exact, so the division and the addition each round once to
nearest-even — and the `int64` conversion truncates. For large `d`
this can exceed `⌊d / 1e9⌋` by one. -/
def secondsInt64 (d : Int) : Int :=
  let dn := d.toNat
  let sec := dn / 1000000000
  let nsec := dn % 1000000000
  let f1 := normDouble nsec 1000000000
  let shift := (-f1.2).toNat
  let x2 := normDouble (sec * 2 ^ shift + f1.1) (2 ^ shift)
  Int.ofNat (if 0 ≤ x2.2 then x2.1 * 2 ^ x2.2.toNat else x2.1 / 2 ^ (-x2.2).toNat)

/-- The polymorphic `start`/`end` fields (`interface{}` in Go):
a string, an int64 of epoch seconds, or anything else. -/
inductive TimeVal where
  | str (s : String)
  | int (i : Int)
  | other
deriving DecidableEq

/-- `ParseAbsTime`: try the four absolute layouts in order through the
external `time.Parse` (parameter `tp`), then fall back to a base-10
epoch-seconds integer. -/
def ParseAbsTime (tp : String → String → Option Int) (s : String) : Except String Int :=
  match tp "2006/01/02-15:04:05" s with
  | some t => .ok t
  | none =>
    match tp "2006/01/02-15:04" s with
    | some t => .ok t
    | none =>
      match tp "2006/01/02-15" s with
      | some t => .ok t
      | none =>
        match tp "2006/01/02" s with
        | some t => .ok t
        | none =>
          match parseInt64 s.data with
          | .error e => .error e
          | .ok i => .ok (i * nsPerSec)

/-- `ParseTime`: empty string is "now"; a `-ago` string is "now" minus
the duration produced by the external duration-literal resolver
(parameter `pd`); any other string goes to `ParseAbsTime`; an int64 is
epoch seconds; anything else is a type error. -/
def ParseTime (pd : String → Except String Int) (tp : String → String → Option Int)
    (now : Int) : TimeVal → Except String Int
  | .str s =>
    if s.data.isEmpty then .ok now
    else if agoChars.isSuffixOf s.data then
      match pd (String.mk (s.data.take (s.data.length - 4))) with
      | .error e => .error e
      | .ok d => .ok (now + (-d))
    else ParseAbsTime tp s
  | .int i => .ok (i * nsPerSec)
  | .other => .error "type must be string or int64"

structure Request where
  Start : TimeVal
  End : Option TimeVal := none
  Queries : List Query := []
  NoAnnotations : Bool := false
  GlobalAnnotations : Bool := false
  MsResolution : Bool := false
  ShowTSUIDs : Bool := false
deriving DecidableEq

/-- The shared end-of-window resolution: `ParseTime` when an end is
present, the sampled "now" (`time.Now()`) when absent. -/
def resolveEnd (pd : String → Except String Int) (tp : String → String → Option Int)
    (nowE : Int) : Option TimeVal → Except String Int
  | some v => ParseTime pd tp nowE v
  | none => .ok nowE

/-- `GetDuration`: reject an explicitly empty start string, resolve
start and end (end defaulting to "now"), return `end.Sub(start)` —
exact within `time.Duration`'s ±2^63 ns range and saturated beyond it;
a negative span is a value, not an error. `nowS` is the `time.Now()`
sampled inside `ParseTime` for start, `nowE` the one for end. -/
def GetDuration (pd : String → Except String Int) (tp : String → String → Option Int)
    (nowS nowE : Int) (r : Request) : Except String Int :=
  if r.Start = TimeVal.str "" then .error "start time must be provided"
  else
    match ParseTime pd tp nowS r.Start with
    | .error e => .error e
    | .ok start =>
      match resolveEnd pd tp nowE r.End with
      | .error e => .error e
      | .ok endT => .ok (timeSub endT start)

/-- `AutoDownsample`: reject a zero target, compute the window via
`GetDuration`, divide by the target (Go int64 division truncates), do
nothing below the 15-second floor, otherwise rewrite every query's
downsample to `<int64(d.Seconds())>s-avg`, with the seconds computed
through the float64 path of `Duration.Seconds` (`secondsInt64`). -/
def AutoDownsample (pd : String → Except String Int) (tp : String → String → Option Int)
    (nowS nowE : Int) (l : Int) (r : Request) : Except String Request :=
  if l = 0 then .error "tsaf: target length must be > 0"
  else
    match GetDuration pd tp nowS nowE r with
    | .error e => .error e
    | .ok cd =>
      let d := cd.tdiv l
      if d < 15 * nsPerSec then .ok r
      else
        let ds := toString (secondsInt64 d) ++ "s-avg"
        .ok { r with Queries := r.Queries.map fun q => { q with Downsample := ds } }

/-! ## Cache and DateCache

The transport (`Request.Query` over HTTP) is a parameter; it is indexed
by an invocation counter so that "invoked at most once" is expressible
even when successive invocations would answer differently. JSON
marshalling is the external `marshal` parameter; its output string is
the cache key. -/

abbrev Point := Float

structure Response where
  Metric : String
  Tags : TagSet
  AggregateTags : List String
  DPS : List (String × Point)

abbrev ResponseSet := List Response

/-- The `(ResponseSet, error)` pair a query returns and the cache
stores (`cacheResult`). -/
abbrev QueryResult := ResponseSet × Option String

/-- The cache's backing map, keyed by the marshalled request. -/
abbrev CacheState := List (String × QueryResult)

/-- `Cache.Query`: marshal the request (returning the error without
touching the cache on failure), replay a stored result on a key hit,
otherwise invoke the transport once and store its outcome. Returns
(result, new cache state, new invocation counter). -/
def cacheQuery (marshal : Request → Except String String)
    (transport : Nat → Request → QueryResult)
    (st : CacheState) (n : Nat) (r : Request) : QueryResult × CacheState × Nat :=
  match marshal r with
  | .error e => (([], some e), st, n)
  | .ok s =>
    match st.lookup s with
    | some v => (v, st, n)
    | none =>
      let res := transport n r
      (res, (s, res) :: st, n + 1)

/-- The normalization step of `DateCache.Query`: resolve start and end
(end defaulting to the sampled "now"), shift both by
`c.now.Sub(end)` — the offset from the resolved end to the fixed
reference `cnow`, saturated as `time.Time.Sub` is — and rewrite them
as absolute epoch seconds. `wS`/`wE` are the `time.Now()` samples
taken while resolving start and end. -/
def dateNormalize (pd : String → Except String Int) (tp : String → String → Option Int)
    (cnow wS wE : Int) (r : Request) : Except String Request :=
  match ParseTime pd tp wS r.Start with
  | .error e => .error e
  | .ok start =>
    match resolveEnd pd tp wE r.End with
    | .error e => .error e
    | .ok endT =>
      let diff := timeSub cnow endT
      .ok { r with Start := TimeVal.int (unixOf (start + diff)),
                   End := some (TimeVal.int (unixOf (endT + diff))) }

/-- `DateCache.Query`: normalize the window to the fixed reference,
then delegate to the wrapped cache; a resolution error is returned
without touching cache or transport. -/
def dateCacheQuery (pd : String → Except String Int) (tp : String → String → Option Int)
    (marshal : Request → Except String String) (transport : Nat → Request → QueryResult)
    (cnow wS wE : Int) (st : CacheState) (n : Nat) (r : Request) :
    QueryResult × CacheState × Nat :=
  match dateNormalize pd tp cnow wS wE r with
  | .error e => (([], some e), st, n)
  | .ok r2 => cacheQuery marshal transport st n r2

/-! # Supporting lemmas -/

theorem cleanLoop_eq_filter (isL isD : Char → Bool) (l : List Char) :
    cleanLoop isL isD l = l.filter (cleanPred isL isD) := by
  induction l with
  | nil => rfl
  | cons c rest ih =>
    simp only [cleanLoop, List.filter_cons, cleanPred, ih]

theorem str_eq_empty_iff (d : List Char) : (String.mk d = "") ↔ d = [] := by
  constructor
  · intro h
    exact congrArg String.data h
  · intro h
    rw [h]

theorem suffix_ago_ne_nil {l : List Char} (h : agoChars.isSuffixOf l = true) :
    l.isEmpty = false := by
  cases l with
  | nil => exact absurd h (by decide)
  | cons a as => rfl

theorem isEmpty_false_of_ne_nil {α : Type} {l : List α} (h : l ≠ []) :
    l.isEmpty = false := by
  cases l with
  | nil => exact absurd rfl h
  | cons a as => rfl

theorem data_ne_nil_of_ne_empty {s : String} (h : s ≠ "") : s.data ≠ [] := by
  intro hd
  exact h (String.ext_iff.mpr hd)

theorem lookup_eq_of_mem_nodup (t : TagSet) (k : String) (v : String)
    (hnd : (t.map Prod.fst).Nodup) (hm : (k, v) ∈ t) : t.lookup k = some v := by
  induction t with
  | nil => cases hm
  | cons p rest ih =>
    obtain ⟨k0, v0⟩ := p
    simp only [List.map_cons, List.nodup_cons] at hnd
    rcases List.mem_cons.mp hm with h | h
    · rw [Prod.mk.injEq] at h
      obtain ⟨rfl, rfl⟩ := h
      rw [List.lookup_cons, beq_self_eq_true]
    · have hne : k ≠ k0 := by
        intro hk
        exact hnd.1 (hk ▸ List.mem_map_of_mem Prod.fst h)
      rw [List.lookup_cons, beq_eq_false_iff_ne.mpr hne]
      exact ih hnd.2 h

theorem takeWhile_append_all {p : Char → Bool} :
    ∀ (xs ys : List Char), (∀ c ∈ xs, p c = true) →
    (∀ c, ys.head? = some c → p c = false) →
    (xs ++ ys).takeWhile p = xs ∧ (xs ++ ys).dropWhile p = ys := by
  intro xs
  induction xs with
  | nil =>
    intro ys _ hy
    cases ys with
    | nil => exact ⟨rfl, rfl⟩
    | cons c cs =>
      simp only [List.nil_append, List.takeWhile_cons, List.dropWhile_cons,
        hy c rfl]
      exact ⟨rfl, rfl⟩
  | cons x xs ih =>
    intro ys hx hy
    have hpx : p x = true := hx x (List.mem_cons_self x xs)
    have hr := ih ys (fun c hc => hx c (List.mem_cons_of_mem x hc)) hy
    refine ⟨?_, ?_⟩
    · rw [List.cons_append, List.takeWhile_cons, hpx, if_pos rfl, hr.1]
    · rw [List.cons_append, List.dropWhile_cons, hpx, if_pos rfl, hr.2]

theorem splits_mem : ∀ (l pre post : List Char),
    ((pre, post) ∈ splits l ↔ l = pre ++ ':' :: post) := by
  intro l
  induction l with
  | nil =>
    intro pre post
    simp only [splits, List.not_mem_nil, false_iff]
    intro h
    cases pre <;> simp_all
  | cons c cs ih =>
    intro pre post
    constructor
    · intro h
      rcases List.mem_append.mp h with h | h
      · by_cases hc : c = ':'
        · rw [if_pos hc] at h
          simp only [List.mem_singleton, Prod.mk.injEq] at h
          rw [h.1, h.2, hc]
          rfl
        · rw [if_neg hc] at h
          cases h
      · obtain ⟨⟨a, b⟩, hab, heq⟩ := List.mem_map.mp h
        simp only [Prod.mk.injEq] at heq
        rw [← heq.1, ← heq.2]
        simp only [List.cons_append, List.cons.injEq]
        exact ⟨by trivial, (ih a b).mp hab⟩
    · intro h
      cases pre with
      | nil =>
        simp only [List.nil_append, List.cons.injEq] at h
        apply List.mem_append.mpr
        left
        rw [if_pos h.1]
        simp only [List.mem_singleton, Prod.mk.injEq]
        exact ⟨by trivial, h.2.symm⟩
      | cons a pre2 =>
        simp only [List.cons_append, List.cons.injEq] at h
        apply List.mem_append.mpr
        right
        apply List.mem_map.mpr
        refine ⟨(pre2, post), (ih pre2 post).mpr h.2, ?_⟩
        rw [h.1]

theorem splits_pairwise : ∀ (l : List Char),
    (splits l).Pairwise (fun a b => a.1.length < b.1.length) := by
  intro l
  induction l with
  | nil => exact List.Pairwise.nil
  | cons c cs ih =>
    simp only [splits]
    apply List.pairwise_append.mpr
    refine ⟨?_, ?_, ?_⟩
    · by_cases hc : c = ':'
      · rw [if_pos hc]
        exact List.pairwise_singleton _ _
      · rw [if_neg hc]
        exact List.Pairwise.nil
    · exact List.pairwise_map.mpr (ih.imp (by
        intro a b hab
        simpa using Nat.succ_lt_succ hab))
    · intro a ha b hb
      by_cases hc : c = ':'
      · rw [if_pos hc] at ha
        simp only [List.mem_singleton] at ha
        obtain ⟨p, _, hp⟩ := List.mem_map.mp hb
        rw [ha, ← hp]
        simp
      · rw [if_neg hc] at ha
        cases ha

theorem mem_of_getLast?_eq {α : Type} : ∀ {l : List α} {p : α},
    l.getLast? = some p → p ∈ l := by
  intro l
  induction l with
  | nil => intro p h; cases h
  | cons a l ih =>
    intro p h
    cases l with
    | nil =>
      simp only [List.getLast?_singleton, Option.some.injEq] at h
      rw [← h]
      exact List.mem_singleton_self a
    | cons b m =>
      rw [List.getLast?_cons_cons] at h
      exact List.mem_cons_of_mem a (ih h)

theorem pairwise_getLast_ge {α : Type} {R : α → α → Prop} :
    ∀ {l : List α}, l.Pairwise R → ∀ {p : α}, l.getLast? = some p →
    ∀ q ∈ l, q = p ∨ R q p := by
  intro l
  induction l with
  | nil => intro _ p h; cases h
  | cons a l ih =>
    intro hp p hlast q hq
    cases l with
    | nil =>
      simp only [List.getLast?_singleton, Option.some.injEq] at hlast
      simp only [List.mem_singleton] at hq
      exact Or.inl (hq.trans hlast)
    | cons b m =>
      rw [List.getLast?_cons_cons] at hlast
      have hpm : p ∈ b :: m := mem_of_getLast?_eq hlast
      rcases List.mem_cons.mp hq with rfl | hq2
      · exact Or.inr ((List.pairwise_cons.mp hp).1 p hpm)
      · exact ih (List.pairwise_cons.mp hp).2 hlast q hq2

theorem filter_eq_single {α : Type} {R : α → α → Prop} (hirr : ∀ a, ¬R a a) :
    ∀ (l : List α) (v : α → Bool) (p : α), l.Pairwise R → p ∈ l → v p = true →
    (∀ q ∈ l, v q = true → q = p) → l.filter v = [p] := by
  intro l
  induction l with
  | nil => intro v p _ hm; cases hm
  | cons a l ih =>
    intro v p hp hm hv huniq
    rcases List.mem_cons.mp hm with rfl | hm2
    · rw [List.filter_cons, if_pos hv]
      have hnil : l.filter v = [] := by
        rw [List.filter_eq_nil_iff]
        intro b hb hvb
        have hbp := huniq b (List.mem_cons_of_mem p hb) hvb
        exact hirr p (hbp ▸ (List.pairwise_cons.mp hp).1 b hb)
      rw [hnil]
    · have hap : a ≠ p := by
        intro h
        exact hirr p (h ▸ (List.pairwise_cons.mp hp).1 p hm2)
      have hva : v a = false := by
        rcases h : v a with _ | _
        · rfl
        · exact absurd (huniq a (List.mem_cons_self a l) h) hap
      rw [List.filter_cons, if_neg (by simp [hva])]
      exact ih v p (List.pairwise_cons.mp hp).2 hm2 hv
        (fun q hq hvq => huniq q (List.mem_cons_of_mem a hq) hvq)

theorem split_through {ch : Char} : ∀ (A B x y : List Char), ch ∉ A →
    A ++ B = x ++ ch :: y → ∃ x2, x = A ++ x2 ∧ B = x2 ++ ch :: y := by
  intro A
  induction A with
  | nil =>
    intro B x y _ h
    exact ⟨x, rfl, h⟩
  | cons a A ih =>
    intro B x y hc h
    cases x with
    | nil =>
      simp only [List.nil_append, List.cons_append, List.cons.injEq] at h
      exact absurd (h.1 ▸ List.mem_cons_self a A) hc
    | cons b x2 =>
      simp only [List.cons_append, List.cons.injEq] at h
      obtain ⟨x3, hx, hB⟩ := ih B x2 y (fun hm => hc (List.mem_cons_of_mem a hm)) h.2
      exact ⟨x3, by rw [List.cons_append, ← hx, h.1], hB⟩

theorem append_single_eq {w ch : Char} (hcw : ch ≠ w) :
    ∀ (T x y : List Char), T ++ [w] = x ++ ch :: y →
    ∃ v, T = x ++ ch :: v ∧ y = v ++ [w] := by
  intro T
  induction T with
  | nil =>
    intro x y h
    cases x with
    | nil =>
      simp only [List.nil_append, List.cons.injEq] at h
      exact absurd h.1.symm hcw
    | cons b x2 =>
      simp only [List.nil_append, List.cons_append, List.cons.injEq] at h
      exact absurd h.2.symm (List.append_ne_nil_of_right_ne_nil x2 (List.cons_ne_nil ch y))
  | cons t T2 ih =>
    intro x y h
    cases x with
    | nil =>
      simp only [List.nil_append, List.cons_append, List.cons.injEq] at h
      refine ⟨T2, ?_, h.2.symm⟩
      rw [List.nil_append, h.1]
    | cons b x2 =>
      simp only [List.cons_append, List.cons.injEq] at h
      obtain ⟨v, hT, hy⟩ := ih x2 y h.2
      refine ⟨v, ?_, hy⟩
      rw [List.cons_append, ← hT, h.1]

theorem ne_nil_of_isEmpty_false {α : Type} {l : List α} (h : l.isEmpty = false) :
    l ≠ [] := by
  intro hl
  rw [hl] at h
  cases h

theorem isW_ne {c : Char} (h : isW c = true) : c ≠ ':' ∧ c ≠ '-' := by
  constructor <;> rintro rfl <;> exact absurd h (by decide)

theorem isMetricChar_ne {c : Char} (h : isMetricChar c = true) :
    c ≠ ':' ∧ c ≠ '\n' ∧ c ≠ '-' ∧ c ≠ '\x7b' := by
  refine ⟨?_, ?_, ?_, ?_⟩ <;> rintro rfl <;> exact absurd h (by decide)

theorem isTagChar_ne {c : Char} (h : isTagChar c = true) :
    c ≠ '\n' ∧ c ≠ '\x7d' := by
  constructor <;> rintro rfl <;> exact absurd h (by decide)

theorem isSpaceGo_false_of_tagChar {c : Char} (h : isTagChar c = true) :
    isSpaceGo c = false := by
  rcases hs : isSpaceGo c with _ | _
  · rfl
  · simp only [isSpaceGo, Bool.or_eq_true, decide_eq_true_eq] at hs
    rcases hs with (((((rfl | rfl) | rfl) | rfl) | rfl) | rfl) <;>
      exact absurd h (by decide)

theorem tailMatch_eq_some {l M T : List Char} (h : tailMatch l = some (M, T)) :
    M ≠ [] ∧ (∀ c ∈ M, isMetricChar c = true) ∧ (∀ c ∈ T, isTagChar c = true) ∧
    l = M ++ tagPart T := by
  rcases hMe : (l.takeWhile isMetricChar).isEmpty with _ | _
  · rcases hdw : l.dropWhile isMetricChar with _ | ⟨c, r2⟩
    · simp only [tailMatch, hMe, Bool.false_eq_true, if_false, hdw,
        Option.some.injEq, Prod.mk.injEq] at h
      obtain ⟨rfl, rfl⟩ := h
      refine ⟨ne_nil_of_isEmpty_false hMe,
        fun c hc => List.mem_takeWhile_imp hc,
        fun c hc => absurd hc (List.not_mem_nil c), ?_⟩
      conv_lhs => rw [← List.takeWhile_append_dropWhile (p := isMetricChar) (l := l)]
      rw [hdw]
      rfl
    · simp only [tailMatch, hMe, Bool.false_eq_true, if_false, hdw] at h
      by_cases hc : c = '\x7b'
      · subst hc
        simp only [eq_self_iff_true, if_true] at h
        rcases hTe : (r2.takeWhile isTagChar).isEmpty with _ | _
        · simp only [hTe, Bool.false_eq_true, if_false] at h
          rcases hdw2 : r2.dropWhile isTagChar with _ | ⟨d, r3⟩
          · rw [hdw2] at h
            cases h
          · rcases r3 with _ | ⟨e, r4⟩
            · rw [hdw2] at h
              by_cases hd : d = '\x7d'
              · subst hd
                simp only [eq_self_iff_true, if_true, Option.some.injEq,
                  Prod.mk.injEq] at h
                obtain ⟨rfl, rfl⟩ := h
                refine ⟨ne_nil_of_isEmpty_false hMe,
                  fun x hx => List.mem_takeWhile_imp hx,
                  fun x hx => List.mem_takeWhile_imp hx, ?_⟩
                conv_lhs =>
                  rw [← List.takeWhile_append_dropWhile (p := isMetricChar) (l := l)]
                rw [hdw, tagPart,
                  if_neg (by rw [hTe]; exact Bool.false_ne_true)]
                congr 2
                conv_lhs =>
                  rw [← List.takeWhile_append_dropWhile (p := isTagChar) (l := r2)]
                rw [hdw2]
              · simp only [if_neg hd] at h
                cases h
            · rw [hdw2] at h
              cases h
        · simp only [hTe, if_pos rfl] at h
          cases h
      · rw [if_neg hc] at h
        cases h
  · simp only [tailMatch, hMe, if_pos rfl] at h
    cases h

theorem tailMatch_mk (M T : List Char) (hM : M ≠ [])
    (hMc : ∀ c ∈ M, isMetricChar c = true) (hTc : ∀ c ∈ T, isTagChar c = true) :
    tailMatch (M ++ tagPart T) = some (M, T) := by
  have hMe : M.isEmpty = false := isEmpty_false_of_ne_nil hM
  cases T with
  | nil =>
    have h := takeWhile_append_all (p := isMetricChar) M [] hMc (fun c hc => nomatch hc)
    have e : M ++ tagPart [] = M ++ [] := rfl
    rw [e]
    simp only [tailMatch, h.1, h.2, hMe, Bool.false_eq_true, if_false]
  | cons t0 T0 =>
    have h1 := takeWhile_append_all (p := isMetricChar) M
        ('\x7b' :: ((t0 :: T0) ++ ['\x7d'])) hMc
      (fun c hc => by rw [List.head?_cons, Option.some.injEq] at hc; rw [← hc]; decide)
    have h2 := takeWhile_append_all (p := isTagChar) (t0 :: T0) ['\x7d'] hTc
      (fun c hc => by rw [List.head?_cons, Option.some.injEq] at hc; rw [← hc]; decide)
    have e : M ++ tagPart (t0 :: T0) = M ++ ('\x7b' :: ((t0 :: T0) ++ ['\x7d'])) := rfl
    rw [e]
    simp only [tailMatch, h1.1, h1.2, hMe, Bool.false_eq_true, if_false,
      eq_self_iff_true, if_true, h2.1, h2.2]
    rfl

theorem isPrefixOf_self (l : List Char) : l.isPrefixOf l = true := by
  rw [List.isPrefixOf_iff_prefix]

theorem isPrefixOf_append_right {l m : List Char} (z : List Char)
    (h : l.isPrefixOf m = true) : l.isPrefixOf (m ++ z) = true := by
  rw [List.isPrefixOf_iff_prefix] at h ⊢
  exact h.trans (List.prefix_append m z)

theorem exists_of_isPrefixOf {l m : List Char} (h : l.isPrefixOf m = true) :
    ∃ t, m = l ++ t := by
  rw [List.isPrefixOf_iff_prefix] at h
  obtain ⟨t, ht⟩ := h
  exact ⟨t, ht.symm⟩

theorem all_ne_nl_of (P : Char → Bool) (hP : ∀ c, P c = true → c ≠ '\n')
    {l : List Char} (hl : ∀ c ∈ l, P c = true) :
    l.all (fun c => c ≠ '\n') = true := by
  rw [List.all_eq_true]
  intro c hc
  simpa using hP c (hl c hc)

theorem group3_eq_some {l m3 M T : List Char} (h : group3 l = some (m3, M, T)) :
    (m3 = [] ∧ tailMatch l = some (M, T)) ∨
    (validSplit (m3, M ++ tagPart T) = true ∧
     l = m3 ++ ':' :: (M ++ tagPart T) ∧
     tailMatch (M ++ tagPart T) = some (M, T) ∧
     ∀ pre post, l = pre ++ ':' :: post → validSplit (pre, post) = true →
       pre.length ≤ m3.length) := by
  rcases hlast : ((splits l).filter validSplit).getLast? with _ | ⟨pre, post⟩
  · simp only [group3, hlast] at h
    rcases htm : tailMatch l with _ | ⟨Mv, Tv⟩
    · simp only [htm] at h
      exact Option.noConfusion h
    · simp only [htm, Option.some.injEq, Prod.mk.injEq] at h
      obtain ⟨rfl, rfl, rfl⟩ := h
      exact Or.inl ⟨rfl, rfl⟩
  · simp only [group3, hlast] at h
    rcases htm : tailMatch post with _ | ⟨Mv, Tv⟩
    · simp only [htm] at h
      exact Option.noConfusion h
    · simp only [htm, Option.some.injEq, Prod.mk.injEq] at h
      obtain ⟨rfl, rfl, rfl⟩ := h
      have hmemf := mem_of_getLast?_eq hlast
      have hmem := (List.mem_filter.mp hmemf).1
      have hval := (List.mem_filter.mp hmemf).2
      have hl : l = pre ++ ':' :: post := (splits_mem l pre post).mp hmem
      have hfacts := tailMatch_eq_some htm
      have hpost : post = Mv ++ tagPart Tv := hfacts.2.2.2
      right
      refine ⟨by rw [← hpost]; exact hval, by rw [← hpost]; exact hl,
        by rw [← hpost]; exact htm, ?_⟩
      intro pre2 post2 hl2 hval2
      have hmemf2 : (pre2, post2) ∈ (splits l).filter validSplit :=
        List.mem_filter.mpr ⟨(splits_mem l pre2 post2).mpr hl2, hval2⟩
      have hpw := (splits_pairwise l).filter validSplit
      rcases pairwise_getLast_ge hpw hlast _ hmemf2 with heq | hlt
      · exact le_of_eq (congrArg (fun p => p.1.length) heq)
      · exact le_of_lt hlt

theorem group3_serialized (m3 M T : List Char)
    (hpre : rateChars.isPrefixOf m3 = true)
    (hnl : m3.all (fun c => c ≠ '\n') = true)
    (hM : M ≠ []) (hMc : ∀ c ∈ M, isMetricChar c = true)
    (hTc : ∀ c ∈ T, isTagChar c = true)
    (hmax : ∀ pre post, m3 ++ ':' :: (M ++ tagPart T) = pre ++ ':' :: post →
      validSplit (pre, post) = true → pre.length ≤ m3.length) :
    group3 (rateChars ++ ':' :: (M ++ tagPart T)) = some (rateChars, M, T) := by
  have htmb : tailMatch (M ++ tagPart T) = some (M, T) := tailMatch_mk M T hM hMc hTc
  have hvalid : validSplit (rateChars, M ++ tagPart T) = true := by
    simp only [validSplit, htmb, Option.isSome_some, Bool.and_true]
    decide
  have hmemG : (rateChars, M ++ tagPart T) ∈
      splits (rateChars ++ ':' :: (M ++ tagPart T)) :=
    (splits_mem _ rateChars (M ++ tagPart T)).mpr rfl
  have hcM : ':' ∉ M := fun hm => (isMetricChar_ne (hMc ':' hm)).1 rfl
  have huniq : ∀ q ∈ splits (rateChars ++ ':' :: (M ++ tagPart T)),
      validSplit q = true → q = (rateChars, M ++ tagPart T) := by
    rintro ⟨pre, post⟩ hq hv
    have hGeq : rateChars ++ ':' :: (M ++ tagPart T) = pre ++ ':' :: post :=
      (splits_mem _ pre post).mp hq
    have hv2 := hv
    unfold validSplit at hv2
    rw [Bool.and_eq_true, Bool.and_eq_true] at hv2
    obtain ⟨⟨hp, hnl2⟩, hts⟩ := hv2
    obtain ⟨pre2, rfl⟩ := exists_of_isPrefixOf hp
    rw [List.append_assoc] at hGeq
    have htail := List.append_cancel_left hGeq
    cases pre2 with
    | nil =>
      simp only [List.nil_append, List.cons.injEq] at htail
      rw [List.append_nil, htail.2]
    | cons c2 pre3 =>
      exfalso
      rw [List.cons_append] at htail
      injection htail with hc2 hbody
      cases T with
      | nil =>
        have hb : M ++ ([] : List Char) = pre3 ++ ':' :: post := hbody
        obtain ⟨x2, _, hnil⟩ := split_through M [] pre3 post hcM hb
        exact List.append_ne_nil_of_right_ne_nil x2 (List.cons_ne_nil ':' post) hnil.symm
      | cons t0 T0 =>
        have hb : M ++ ('\x7b' :: ((t0 :: T0) ++ ['\x7d'])) = pre3 ++ ':' :: post := hbody
        obtain ⟨x2, hx2, h2⟩ := split_through M _ pre3 post hcM hb
        cases x2 with
        | nil =>
          rw [List.nil_append] at h2
          injection h2 with ha _
          exact absurd ha (by decide)
        | cons c3 x3 =>
          rw [List.cons_append] at h2
          injection h2 with hc3 h3
          obtain ⟨v, hTspl, hpostv⟩ := append_single_eq (by decide) (t0 :: T0) x3 post h3
          have hdec : m3 ++ ':' :: (M ++ tagPart (t0 :: T0)) =
              (m3 ++ ':' :: (M ++ '\x7b' :: x3)) ++ ':' :: (v ++ ['\x7d']) := by
            have e : tagPart (t0 :: T0) = '\x7b' :: ((t0 :: T0) ++ ['\x7d']) := rfl
            rw [e, hTspl]
            simp [List.append_assoc]
          have hx3mem : ∀ c ∈ x3, c ∈ t0 :: T0 := by
            intro c hc
            rw [hTspl]
            exact List.mem_append.mpr (Or.inl hc)
          have hvalid0 : validSplit
              (m3 ++ ':' :: (M ++ '\x7b' :: x3), v ++ ['\x7d']) = true := by
            unfold validSplit
            rw [Bool.and_eq_true, Bool.and_eq_true]
            refine ⟨⟨isPrefixOf_append_right _ hpre, ?_⟩, ?_⟩
            · rw [List.all_append, Bool.and_eq_true]
              refine ⟨hnl, ?_⟩
              rw [List.all_cons, Bool.and_eq_true]
              refine ⟨by decide, ?_⟩
              rw [List.all_append, Bool.and_eq_true]
              refine ⟨all_ne_nl_of isMetricChar (fun c hc => (isMetricChar_ne hc).2.1) hMc, ?_⟩
              rw [List.all_cons, Bool.and_eq_true]
              refine ⟨by decide, ?_⟩
              exact all_ne_nl_of isTagChar (fun c hc => (isTagChar_ne hc).1)
                (fun c hc => hTc c (hx3mem c hc))
            · rw [← hpostv]
              exact hts
          have hlen := hmax _ _ hdec hvalid0
          simp only [List.length_append, List.length_cons] at hlen
          omega
  have hfilter : (splits (rateChars ++ ':' :: (M ++ tagPart T))).filter validSplit =
      [(rateChars, M ++ tagPart T)] :=
    filter_eq_single (R := fun a b => a.1.length < b.1.length)
      (fun a => lt_irrefl _) _ validSplit (rateChars, M ++ tagPart T)
      (splits_pairwise _) hmemG hvalid huniq
  simp only [group3, hfilter, List.getLast?_singleton, htmb]

theorem group2rest_fallback {l ds m3 M T : List Char}
    (h : (match group3 l with
          | some (m3, M, T) => some (([] : List Char), m3, M, T)
          | none => none) = some (ds, m3, M, T)) :
    ds = [] ∧ group3 l = some (m3, M, T) := by
  rcases h3 : group3 l with _ | ⟨a, b, c2⟩
  · simp only [h3] at h
    exact Option.noConfusion h
  · simp only [h3, Option.some.injEq, Prod.mk.injEq] at h
    obtain ⟨rfl, rfl, rfl, rfl⟩ := h
    exact ⟨rfl, rfl⟩

theorem group2rest_eq_some {l ds m3 M T : List Char}
    (h : group2rest l = some (ds, m3, M, T)) :
    (ds = [] ∧ group3 l = some (m3, M, T)) ∨
    (∃ w1 w2 r4, w1 ≠ [] ∧ w2 ≠ [] ∧ (∀ c ∈ w1, isW c = true) ∧
      (∀ c ∈ w2, isW c = true) ∧ ds = w1 ++ '-' :: w2 ∧
      l = w1 ++ '-' :: (w2 ++ ':' :: r4) ∧ group3 r4 = some (m3, M, T)) := by
  rcases he : (l.takeWhile isW).isEmpty with _ | _
  · rcases hdw : l.dropWhile isW with _ | ⟨c, r2⟩
    · simp only [group2rest, he, Bool.false_eq_true, if_false, hdw] at h
      exact Or.inl (group2rest_fallback h)
    · by_cases hc : c = '-'
      · subst hc
        rcases he2 : (r2.takeWhile isW).isEmpty with _ | _
        · rcases hdw2 : r2.dropWhile isW with _ | ⟨d, r4⟩
          · simp only [group2rest, he, Bool.false_eq_true, if_false, hdw,
              eq_self_iff_true, if_true, he2, hdw2] at h
            exact Or.inl (group2rest_fallback h)
          · by_cases hd : d = ':'
            · subst hd
              rcases h3 : group3 r4 with _ | ⟨a, b, c2⟩
              · simp only [group2rest, he, Bool.false_eq_true, if_false, hdw,
                  eq_self_iff_true, if_true, he2, hdw2, h3] at h
                exact Or.inl (group2rest_fallback h)
              · simp only [group2rest, he, Bool.false_eq_true, if_false, hdw,
                  eq_self_iff_true, if_true, he2, hdw2, h3, Option.some.injEq,
                  Prod.mk.injEq] at h
                obtain ⟨rfl, rfl, rfl, rfl⟩ := h
                right
                refine ⟨l.takeWhile isW, r2.takeWhile isW, r4,
                  ne_nil_of_isEmpty_false he, ne_nil_of_isEmpty_false he2,
                  fun x hx => List.mem_takeWhile_imp hx,
                  fun x hx => List.mem_takeWhile_imp hx, rfl, ?_, h3⟩
                conv_lhs => rw [← List.takeWhile_append_dropWhile (p := isW) (l := l)]
                rw [hdw]
                congr 2
                conv_lhs => rw [← List.takeWhile_append_dropWhile (p := isW) (l := r2)]
                rw [hdw2]
            · simp only [group2rest, he, Bool.false_eq_true, if_false, hdw,
                eq_self_iff_true, if_true, he2, hdw2, if_neg hd] at h
              exact Or.inl (group2rest_fallback h)
        · simp only [group2rest, he, Bool.false_eq_true, if_false, hdw,
            eq_self_iff_true, if_true, he2, if_pos rfl] at h
          exact Or.inl (group2rest_fallback h)
      · simp only [group2rest, he, Bool.false_eq_true, if_false, hdw, if_neg hc] at h
        exact Or.inl (group2rest_fallback h)
  · simp only [group2rest, he, if_pos rfl] at h
    exact Or.inl (group2rest_fallback h)

theorem group2rest_rate {X m3 M T : List Char}
    (h3 : group3 (rateChars ++ ':' :: X) = some (m3, M, T)) :
    group2rest (rateChars ++ ':' :: X) = some ([], m3, M, T) := by
  have h := takeWhile_append_all (p := isW) rateChars (':' :: X) (by decide)
    (fun c hc => by rw [List.head?_cons, Option.some.injEq] at hc; rw [← hc]; decide)
  simp only [group2rest, h.1, h.2, h3]
  rfl

theorem group2rest_ds {w1 w2 X m3 M T : List Char} (hw1 : w1 ≠ []) (hw2 : w2 ≠ [])
    (hw1c : ∀ c ∈ w1, isW c = true) (hw2c : ∀ c ∈ w2, isW c = true)
    (h3 : group3 X = some (m3, M, T)) :
    group2rest ((w1 ++ '-' :: w2) ++ ':' :: X) = some (w1 ++ '-' :: w2, m3, M, T) := by
  have e : (w1 ++ '-' :: w2) ++ ':' :: X = w1 ++ '-' :: (w2 ++ ':' :: X) := by
    simp
  rw [e]
  have h1 := takeWhile_append_all (p := isW) w1 ('-' :: (w2 ++ ':' :: X)) hw1c
    (fun c hc => by rw [List.head?_cons, Option.some.injEq] at hc; rw [← hc]; decide)
  have h2 := takeWhile_append_all (p := isW) w2 (':' :: X) hw2c
    (fun c hc => by rw [List.head?_cons, Option.some.injEq] at hc; rw [← hc]; decide)
  simp only [group2rest, h1.1, h1.2, isEmpty_false_of_ne_nil hw1, Bool.false_eq_true,
    if_false, h2.1, h2.2, isEmpty_false_of_ne_nil hw2, h3]
  rfl

theorem qMatch_mk {agg body ds m3 M T : List Char} (hagg : agg ≠ [])
    (haggc : ∀ c ∈ agg, isW c = true)
    (h2 : group2rest body = some (ds, m3, M, T)) :
    qMatch (agg ++ ':' :: body) = some (agg, ds, m3, M, T) := by
  have h := takeWhile_append_all (p := isW) agg (':' :: body) haggc
    (fun c hc => by rw [List.head?_cons, Option.some.injEq] at hc; rw [← hc]; decide)
  simp only [qMatch, h.1, h.2, isEmpty_false_of_ne_nil hagg, Bool.false_eq_true,
    if_false, h2]
  rfl

theorem qMatch_eq_some {l agg ds m3 M T : List Char}
    (h : qMatch l = some (agg, ds, m3, M, T)) :
    agg ≠ [] ∧ (∀ c ∈ agg, isW c = true) ∧
    ∃ body, l = agg ++ ':' :: body ∧ group2rest body = some (ds, m3, M, T) := by
  rcases he : (l.takeWhile isW).isEmpty with _ | _
  · rcases hdw : l.dropWhile isW with _ | ⟨c, body⟩
    · simp only [qMatch, he, Bool.false_eq_true, if_false, hdw] at h
      exact Option.noConfusion h
    · by_cases hc : c = ':'
      · subst hc
        simp only [qMatch, he, Bool.false_eq_true, if_false, hdw, eq_self_iff_true,
          if_true] at h
        rcases h2 : group2rest body with _ | ⟨a, b, c2, d2⟩
        · simp only [h2] at h
          exact Option.noConfusion h
        · simp only [h2, Option.some.injEq, Prod.mk.injEq] at h
          obtain ⟨rfl, rfl, rfl, rfl, rfl⟩ := h
          refine ⟨ne_nil_of_isEmpty_false he,
            fun x hx => List.mem_takeWhile_imp hx, body, ?_, h2⟩
          conv_lhs => rw [← List.takeWhile_append_dropWhile (p := isW) (l := l)]
          rw [hdw]
      · simp only [qMatch, he, Bool.false_eq_true, if_false, hdw, if_neg hc] at h
        exact Option.noConfusion h
  · simp only [qMatch, he, if_pos rfl] at h
    exact Option.noConfusion h

theorem mk_data (l : List Char) : (String.mk l).data = l := rfl

theorem splitOnChar_ne_nil (sep : Char) : ∀ l, splitOnChar sep l ≠ [] := by
  intro l
  cases l with
  | nil => exact List.cons_ne_nil _ _
  | cons c cs =>
    simp only [splitOnChar]
    by_cases hc : c = sep
    · rw [if_pos hc]
      exact List.cons_ne_nil _ _
    · rw [if_neg hc]
      rcases hs : splitOnChar sep cs with _ | ⟨h0, t0⟩
      · exact List.cons_ne_nil _ _
      · exact List.cons_ne_nil _ _

theorem splitOnChar_join (sep : Char) : ∀ l, joinSep sep (splitOnChar sep l) = l := by
  intro l
  induction l with
  | nil => rfl
  | cons c cs ih =>
    simp only [splitOnChar]
    by_cases hc : c = sep
    · rw [if_pos hc]
      have hne := splitOnChar_ne_nil sep cs
      simp only [joinSep, List.nil_append, isEmpty_false_of_ne_nil hne,
        Bool.false_eq_true, if_false, ih, hc]
    · rw [if_neg hc]
      rcases hs : splitOnChar sep cs with _ | ⟨h0, t0⟩
      · exact absurd hs (splitOnChar_ne_nil sep cs)
      · rw [hs] at ih
        simp only [joinSep, List.cons_append]
        have e : h0 ++ (if t0.isEmpty then [] else sep :: joinSep sep t0) =
            joinSep sep (h0 :: t0) := rfl
        rw [e, ih]

theorem splitOnChar_mem_pred (sep : Char) (P : Char → Bool) :
    ∀ l, (∀ c ∈ l, P c = true) →
    ∀ p ∈ splitOnChar sep l, ∀ c ∈ p, P c = true ∧ c ≠ sep := by
  intro l
  induction l with
  | nil =>
    intro _ p hp x hx
    simp only [splitOnChar, List.mem_singleton] at hp
    rw [hp] at hx
    cases hx
  | cons c cs ih =>
    intro hl p hp x hx
    by_cases hc : c = sep
    · simp only [splitOnChar, if_pos hc] at hp
      rcases List.mem_cons.mp hp with rfl | hp2
      · cases hx
      · exact ih (fun y hy => hl y (List.mem_cons_of_mem c hy)) p hp2 x hx
    · simp only [splitOnChar, if_neg hc] at hp
      rcases hs : splitOnChar sep cs with _ | ⟨h0, t0⟩
      · exact absurd hs (splitOnChar_ne_nil sep cs)
      · rw [hs] at hp
        rcases List.mem_cons.mp hp with rfl | hp2
        · rcases List.mem_cons.mp hx with rfl | hx2
          · exact ⟨hl x (List.mem_cons_self x cs), hc⟩
          · exact ih (fun y hy => hl y (List.mem_cons_of_mem c hy)) h0
              (hs ▸ List.mem_cons_self h0 t0) x hx2
        · exact ih (fun y hy => hl y (List.mem_cons_of_mem c hy)) p
            (hs ▸ List.mem_cons_of_mem h0 hp2) x hx

theorem splitEq_eq_some {v k0 v0 : List Char} (h : splitEq v = some (k0, v0)) :
    v = k0 ++ '=' :: v0 := by
  rcases hdw : v.dropWhile (fun c => c ≠ '=') with _ | ⟨c, v1⟩
  · simp only [splitEq, hdw] at h
    exact Option.noConfusion h
  · by_cases hc : c = '='
    · subst hc
      simp only [splitEq, hdw, eq_self_iff_true, if_true, Option.some.injEq,
        Prod.mk.injEq] at h
      obtain ⟨rfl, rfl⟩ := h
      conv_lhs =>
        rw [← List.takeWhile_append_dropWhile (p := fun c => c ≠ '=') (l := v)]
      rw [hdw]
    · simp only [splitEq, hdw, if_neg hc] at h
      exact Option.noConfusion h

theorem dropWhile_eq_self_of {p : Char → Bool} {l : List Char}
    (h : ∀ c ∈ l, p c = false) : l.dropWhile p = l := by
  cases l with
  | nil => rfl
  | cons c cs =>
    rw [List.dropWhile_cons, h c (List.mem_cons_self c cs)]
    simp

theorem trimSpace_eq_self {l : List Char} (h : ∀ c ∈ l, isSpaceGo c = false) :
    trimSpace l = l := by
  unfold trimSpace
  rw [dropWhile_eq_self_of h,
    dropWhile_eq_self_of (fun c hc => h c (List.mem_reverse.mp hc)),
    List.reverse_reverse]

theorem parseTagsParts_decomp : ∀ (parts : List (List Char)) (acc ts : TagSet),
    (∀ p ∈ parts, ∀ c ∈ p, isSpaceGo c = false) →
    parseTagsParts parts acc = .ok ts →
    ∃ newts, ts = acc ++ newts ∧
      newts.map (fun kv => kv.1.data ++ '=' :: kv.2.data) = parts := by
  intro parts
  induction parts with
  | nil =>
    intro acc ts _ h
    simp only [parseTagsParts, Except.ok.injEq] at h
    exact ⟨[], by rw [← h, List.append_nil], rfl⟩
  | cons p rest ih =>
    intro acc ts hsp h
    rcases hse : splitEq p with _ | ⟨k0, v0⟩
    · simp only [parseTagsParts, hse] at h
      exact Except.noConfusion h
    · simp only [parseTagsParts, hse] at h
      rcases hlk : acc.lookup (String.mk (trimSpace k0)) with _ | w
      · simp only [hlk] at h
        have hp : p = k0 ++ '=' :: v0 := splitEq_eq_some hse
        have hk0 : ∀ c ∈ k0, isSpaceGo c = false := fun c hc =>
          hsp p (List.mem_cons_self p rest) c
            (by rw [hp]; exact List.mem_append.mpr (Or.inl hc))
        have hv0 : ∀ c ∈ v0, isSpaceGo c = false := fun c hc =>
          hsp p (List.mem_cons_self p rest) c
            (by rw [hp]; exact List.mem_append.mpr (Or.inr (List.mem_cons_of_mem _ hc)))
        obtain ⟨newts, hts, hmap⟩ := ih
          (acc ++ [(String.mk (trimSpace k0), String.mk (trimSpace v0))]) ts
          (fun x hx => hsp x (List.mem_cons_of_mem p hx)) h
        refine ⟨(String.mk (trimSpace k0), String.mk (trimSpace v0)) :: newts, ?_, ?_⟩
        · rw [hts, List.append_assoc]
          rfl
        · simp only [List.map_cons, hmap, mk_data]
          rw [trimSpace_eq_self hk0, trimSpace_eq_self hv0, ← hp]
      · simp only [hlk] at h
        exact Except.noConfusion h

theorem tagsJoin_eq_joinSep : ∀ ts : TagSet,
    tagsJoin ts = joinSep ',' (ts.map fun kv => kv.1.data ++ '=' :: kv.2.data) := by
  intro ts
  induction ts with
  | nil => rfl
  | cons kv rest ih =>
    obtain ⟨k, v⟩ := kv
    have hie : (rest.map fun kv => kv.1.data ++ '=' :: kv.2.data).isEmpty =
        rest.isEmpty := by
      cases rest <;> rfl
    simp only [tagsJoin, joinSep, List.map_cons, hie, ih]

theorem ParseTags_serialize {T : List Char} {ts : TagSet}
    (hTc : ∀ c ∈ T, isTagChar c = true) (h : ParseTags T = .ok ts) :
    ts ≠ [] ∧ tagsJoin ts = T := by
  have hparts : ∀ p ∈ splitOnChar ',' T, ∀ c ∈ p, isSpaceGo c = false := by
    intro p hp c hc
    exact isSpaceGo_false_of_tagChar
      ((splitOnChar_mem_pred ',' isTagChar T hTc p hp c hc).1)
  obtain ⟨newts, hts, hmap⟩ := parseTagsParts_decomp (splitOnChar ',' T) [] ts hparts h
  rw [List.nil_append] at hts
  subst hts
  constructor
  · intro hnil
    rw [hnil] at hmap
    exact splitOnChar_ne_nil ',' T hmap.symm
  · rw [tagsJoin_eq_joinSep, hmap, splitOnChar_join]

theorem tags_block_eq {T : List Char} {tags : TagSet}
    (hTc : ∀ c ∈ T, isTagChar c = true)
    (h : (if T.isEmpty then Except.ok ([] : TagSet) else ParseTags T) = .ok tags) :
    (if tags.isEmpty then [] else '\x7b' :: (tagsJoin tags ++ ['\x7d'])) = tagPart T := by
  cases T with
  | nil =>
    rw [if_pos (show List.isEmpty ([] : List Char) = true from rfl)] at h
    injection h with h2
    rw [← h2]
    rfl
  | cons t0 T0 =>
    simp only [List.isEmpty_cons, Bool.false_eq_true, if_false] at h
    obtain ⟨hne, hjoin⟩ := ParseTags_serialize hTc h
    rw [if_neg (by rw [isEmpty_false_of_ne_nil hne]; exact Bool.false_ne_true), hjoin]
    rfl

theorem parseRateOpts_rate : parseRateOpts rateChars = .ok ⟨false, 0, 0⟩ := rfl

theorem ParseQuery_eq_ok {s : String} {q : Query} (h : ParseQuery s = .ok q) :
    ∃ agg ds m3 M T,
      qMatch s.data = some (agg, ds, m3, M, T) ∧
      q.Aggregator = String.mk agg ∧ q.Metric = String.mk M ∧
      q.Rate = rateChars.isPrefixOf m3 ∧ q.Downsample = String.mk ds ∧
      (if T.isEmpty then Except.ok ([] : TagSet) else ParseTags T) = .ok q.Tags ∧
      (rateChars.isPrefixOf m3 = false → q.RateOptions = ⟨false, 0, 0⟩) := by
  rcases hq : qMatch s.data with _ | ⟨agg, ds, m3, M, T⟩
  · simp only [ParseQuery, hq] at h
    exact Except.noConfusion h
  · simp only [ParseQuery, hq] at h
    rcases hrate : rateChars.isPrefixOf m3 with _ | _
    · rw [hrate] at h
      simp only [Bool.false_eq_true, if_false] at h
      rcases ht : (if T.isEmpty then Except.ok ([] : TagSet) else ParseTags T)
        with e | tags
      · rw [ht] at h
        exact Except.noConfusion h
      · rw [ht] at h
        injection h with h2
        subst h2
        exact ⟨agg, ds, m3, M, T, rfl, rfl, rfl, hrate.symm, rfl, ht, fun _ => rfl⟩
    · rw [hrate] at h
      simp only [eq_self_iff_true, if_true] at h
      rcases hro : parseRateOpts m3 with e | ro
      · rw [hro] at h
        exact Except.noConfusion h
      · rw [hro] at h
        rcases ht : (if T.isEmpty then Except.ok ([] : TagSet) else ParseTags T)
          with e | tags
        · rw [ht] at h
          exact Except.noConfusion h
        · rw [ht] at h
          injection h with h2
          subst h2
          exact ⟨agg, ds, m3, M, T, rfl, rfl, rfl, hrate.symm, rfl, ht,
            fun hf => absurd (hrate.symm.trans hf) (by decide)⟩

theorem validSplit_rate_of {m3 post : List Char} (hval : validSplit (m3, post) = true) :
    rateChars.isPrefixOf m3 = true ∧ m3.all (fun c => c ≠ '\n') = true := by
  unfold validSplit at hval
  rw [Bool.and_eq_true, Bool.and_eq_true] at hval
  exact ⟨hval.1.1, hval.1.2⟩

/-- C8 (amended). Re-parsing a parsed query's `String()` serialization
recovers every field except the rate options: `Query.String` writes
only the bare `rate:` token, so the reparsed query is the original with
`RateOptions` reset to their zero values (tags, in this embedding, come
back in identical order). -/
theorem parseQuery_toString_roundtrip (s : String) (q : Query)
    (h : ParseQuery s = .ok q) :
    ParseQuery (queryToString q) = .ok { q with RateOptions := ⟨false, 0, 0⟩ } := by
  obtain ⟨agg, ds, m3, M, T, hq, hAgg, hMet, hRate, hDs, hTags, hRoDflt⟩ :=
    ParseQuery_eq_ok h
  obtain ⟨haggne, haggc, body, hsdata, hg2⟩ := qMatch_eq_some hq
  obtain ⟨qa, qm, qr, qro, qds, qt⟩ := q
  simp only at hAgg hMet hRate hDs hTags hRoDflt
  subst hAgg
  subst hMet
  subst hRate
  subst hDs
  rcases hrateval : rateChars.isPrefixOf m3 with _ | _
  · -- no rate token was matched: the serialization is the input itself
    rw [hrateval] at h hRoDflt
    have hro : qro = ⟨false, 0, 0⟩ := hRoDflt rfl
    subst hro
    have hm3T : m3 = [] ∧ ∃ X, tailMatch X = some (M, T) ∧
        ((ds = [] ∧ body = X) ∨
         (∃ w1 w2, w1 ≠ [] ∧ w2 ≠ [] ∧ ds = w1 ++ '-' :: w2 ∧
           body = w1 ++ '-' :: (w2 ++ ':' :: X))) := by
      rcases group2rest_eq_some hg2 with ⟨hds, hg3⟩ |
        ⟨w1, w2, r4, hw1, hw2, _, _, hdseq, hbodyeq, hg3⟩
      · rcases group3_eq_some hg3 with ⟨hm3, htm⟩ | ⟨hval, _, _, _⟩
        · exact ⟨hm3, body, htm, Or.inl ⟨hds, rfl⟩⟩
        · exact absurd (validSplit_rate_of hval).1
            (by rw [hrateval]; exact Bool.false_ne_true)
      · rcases group3_eq_some hg3 with ⟨hm3, htm⟩ | ⟨hval, _, _, _⟩
        · exact ⟨hm3, r4, htm, Or.inr ⟨w1, w2, hw1, hw2, hdseq, hbodyeq⟩⟩
        · exact absurd (validSplit_rate_of hval).1
            (by rw [hrateval]; exact Bool.false_ne_true)
    obtain ⟨hm3, X, htm, hshape⟩ := hm3T
    obtain ⟨hM, hMc, hTc, hXdec⟩ := tailMatch_eq_some htm
    have hser : queryToString ⟨String.mk agg, String.mk M, false,
        ⟨false, 0, 0⟩, String.mk ds, qt⟩ = s := by
      rw [String.ext_iff]
      show _ = s.data
      rw [hsdata]
      rcases hshape with ⟨hds, hbody⟩ | ⟨w1, w2, hw1, hw2, hdseq, hbodyeq⟩
      · subst hds
        subst hbody
        simp only [queryToString, mk_data, Bool.false_eq_true, if_false,
          List.nil_append, tags_block_eq hTc hTags, hXdec]
        rw [if_pos (show List.isEmpty ([] : List Char) = true from rfl),
          List.nil_append]
      · subst hbodyeq
        have hdsne : ds ≠ [] := by
          rw [hdseq]
          exact List.append_ne_nil_of_right_ne_nil w1 (List.cons_ne_nil '-' w2)
        simp only [queryToString, mk_data, Bool.false_eq_true, if_false,
          List.nil_append, tags_block_eq hTc hTags, hXdec,
          isEmpty_false_of_ne_nil hdsne]
        rw [hdseq]
        simp [List.append_assoc]
    rw [hser, h]
  · -- the rate token was matched: the serialization replaces it by `rate:`
    rw [hrateval] at h
    have hshape : ∃ X, group3 X = some (m3, M, T) ∧
        ((ds = [] ∧ body = X) ∨
         (∃ w1 w2, w1 ≠ [] ∧ w2 ≠ [] ∧ (∀ c ∈ w1, isW c = true) ∧
           (∀ c ∈ w2, isW c = true) ∧ ds = w1 ++ '-' :: w2 ∧
           body = w1 ++ '-' :: (w2 ++ ':' :: X))) := by
      rcases group2rest_eq_some hg2 with ⟨hds, hg3⟩ |
        ⟨w1, w2, r4, hw1, hw2, hw1c, hw2c, hdseq, hbodyeq, hg3⟩
      · exact ⟨body, hg3, Or.inl ⟨hds, rfl⟩⟩
      · exact ⟨r4, hg3, Or.inr ⟨w1, w2, hw1, hw2, hw1c, hw2c, hdseq, hbodyeq⟩⟩
    obtain ⟨X, hg3, hshape⟩ := hshape
    rcases group3_eq_some hg3 with ⟨hm3, _⟩ | ⟨hval, hXeq, htm, hmax⟩
    · rw [hm3] at hrateval
      exact absurd hrateval (by decide)
    obtain ⟨hM, hMc, hTc, _⟩ := tailMatch_eq_some htm
    obtain ⟨hpre, hnl⟩ := validSplit_rate_of hval
    rw [hXeq] at hmax
    have hg3ser := group3_serialized m3 M T hpre hnl hM hMc hTc hmax
    rcases hshape with ⟨hds, hbody⟩ | ⟨w1, w2, hw1, hw2, hw1c, hw2c, hdseq, hbodyeq⟩
    · -- no downsample
      subst hds
      have hg2ser := group2rest_rate hg3ser
      have hqm2 := qMatch_mk haggne haggc hg2ser
      have hser : queryToString ⟨String.mk agg, String.mk M, true,
          qro, String.mk [], qt⟩ =
          String.mk (agg ++ ':' :: (rateChars ++ ':' :: (M ++ tagPart T))) := by
        rw [String.ext_iff]
        simp only [queryToString, mk_data, tags_block_eq hTc hTags, if_true]
        rw [if_pos (show List.isEmpty ([] : List Char) = true from rfl)]
        simp [List.append_assoc]
      rw [hser]
      simp only [ParseQuery, mk_data, hqm2, isPrefixOf_self, eq_self_iff_true,
        if_true, parseRateOpts_rate, hTags]
    · -- with downsample
      subst hdseq
      subst hbodyeq
      have hg2ser := group2rest_ds hw1 hw2 hw1c hw2c hg3ser
      have hqm2 := qMatch_mk haggne haggc hg2ser
      have hdsne : (w1 ++ '-' :: w2) ≠ [] :=
        List.append_ne_nil_of_right_ne_nil w1 (List.cons_ne_nil '-' w2)
      have hser : queryToString ⟨String.mk agg, String.mk M, true,
          qro, String.mk (w1 ++ '-' :: w2), qt⟩ =
          String.mk (agg ++ ':' :: ((w1 ++ '-' :: w2) ++ ':' ::
            (rateChars ++ ':' :: (M ++ tagPart T)))) := by
        rw [String.ext_iff]
        simp only [queryToString, mk_data, tags_block_eq hTc hTags, if_true,
          isEmpty_false_of_ne_nil hdsne, Bool.false_eq_true, if_false]
        simp [List.append_assoc]
      rw [hser]
      simp only [ParseQuery, mk_data, hqm2, isPrefixOf_self, eq_self_iff_true,
        if_true, parseRateOpts_rate, hTags]

/-! # Claim theorems -/

/-- C4. `Clean` returns exactly the subsequence (a `List.Sublist`) of
the input's code points that are letters, digits, or `- _ . /`; it
fails with the distinct empty-input error exactly on `""` and with the
distinct empty-result error exactly when the input is non-empty but the
filtered output is empty; in particular (with the ASCII letter/digit
tables, which agree with Go's Unicode tables on these inputs)
`Clean ""` and `Clean "#$%"` fail while `Clean "cpu#1"` is `"cpu1"`. -/
theorem clean_spec :
    (∀ (isL isD : Char → Bool) (s : String),
      (Clean isL isD s =
        if s = "" then .error "Metric/Tagk/Tagv Cleaning Passed a Zero Length String"
        else if s.data.filter (cleanPred isL isD) = [] then
          .error "Cleaning Metric/Tagk/Tagv resulted in a Zero Length String"
        else .ok (String.mk (s.data.filter (cleanPred isL isD)))) ∧
      (s.data.filter (cleanPred isL isD)).Sublist s.data) ∧
    Clean Char.isAlpha Char.isDigit "" =
      .error "Metric/Tagk/Tagv Cleaning Passed a Zero Length String" ∧
    Clean Char.isAlpha Char.isDigit "#$%" =
      .error "Cleaning Metric/Tagk/Tagv resulted in a Zero Length String" ∧
    Clean Char.isAlpha Char.isDigit "cpu#1" = .ok "cpu1" := by
  refine ⟨fun isL isD s => ⟨?_, List.filter_sublist _⟩, by rfl, by rfl, by rfl⟩
  obtain ⟨d⟩ := s
  simp only [Clean, cleanLoop_eq_filter, str_eq_empty_iff]
  rcases eq_or_ne d [] with rfl | hd
  · rfl
  · rw [if_neg hd, if_neg (by simpa using hd)]
    rcases eq_or_ne (d.filter (cleanPred isL isD)) [] with hf | hf
    · rw [hf, if_pos rfl, if_pos (by simp)]
    · rw [if_neg hf, if_neg (by simpa using hf)]

/-- C9. `t.Subset o` is true iff every key/value pair of `o` is bound
to the identical value in `t`; in particular it is true whenever `o` is
a sub-collection of a duplicate-free `t`, and false as soon as some key
of `o` carries a different value in `t`. -/
theorem tagSet_subset_spec (t o : TagSet) :
    (TagSet.Subset t o = true ↔ ∀ k v, (k, v) ∈ o → t.lookup k = some v) ∧
    ((t.map Prod.fst).Nodup → o ⊆ t → TagSet.Subset t o = true) ∧
    (∀ k v v', (k, v) ∈ o → t.lookup k = some v' → v ≠ v' →
      TagSet.Subset t o = false) := by
  have hiff : TagSet.Subset t o = true ↔ ∀ k v, (k, v) ∈ o → t.lookup k = some v := by
    unfold TagSet.Subset
    rw [List.all_eq_true]
    constructor
    · intro h k v hkv
      have hx := h (k, v) hkv
      rcases hl : t.lookup k with _ | tv
      · rw [hl] at hx
        simp at hx
      · rw [hl] at hx
        simp only [decide_eq_true_eq] at hx
        exact congrArg some hx
    · intro h kv hkv
      obtain ⟨k, v⟩ := kv
      rw [h k v hkv]
      simp
  refine ⟨hiff, ?_, ?_⟩
  · intro hnd hsub
    exact hiff.mpr fun k v hkv => lookup_eq_of_mem_nodup t k v hnd (hsub hkv)
  · intro k v v' hm hl hne
    rcases hS : TagSet.Subset t o with _ | _
    · rfl
    · have := hiff.mp hS k v hm
      rw [hl] at this
      exact absurd (Option.some.injEq .. ▸ this) (fun h => hne h.symm)

/-- C6. `ParseTime` at instant `now`: the empty string is `now`; a
string ending in `-ago` is `now` minus the duration the external
resolver assigns to the prefix, with the resolver's error propagated;
any other non-empty string goes to `ParseAbsTime`; an integer is epoch
seconds; any other value is the type error. -/
theorem parseTime_spec (pd : String → Except String Int)
    (tp : String → String → Option Int) (now : Int) :
    (ParseTime pd tp now (.str "") = .ok now) ∧
    (∀ s d, agoChars.isSuffixOf s.data = true →
      pd (String.mk (s.data.take (s.data.length - 4))) = .ok d →
      ParseTime pd tp now (.str s) = .ok (now - d)) ∧
    (∀ s e, agoChars.isSuffixOf s.data = true →
      pd (String.mk (s.data.take (s.data.length - 4))) = .error e →
      ParseTime pd tp now (.str s) = .error e) ∧
    (∀ s, s ≠ "" → agoChars.isSuffixOf s.data = false →
      ParseTime pd tp now (.str s) = ParseAbsTime tp s) ∧
    (∀ i, ParseTime pd tp now (.int i) = .ok (i * nsPerSec)) ∧
    (ParseTime pd tp now .other = .error "type must be string or int64") := by
  refine ⟨rfl, ?_, ?_, ?_, fun i => rfl, rfl⟩
  · intro s d hsuf hpd
    simp only [ParseTime, suffix_ago_ne_nil hsuf, hsuf, hpd, Bool.false_eq_true,
      if_false, if_true]
    rw [sub_eq_add_neg]
  · intro s e hsuf hpd
    simp only [ParseTime, suffix_ago_ne_nil hsuf, hsuf, hpd, Bool.false_eq_true,
      if_false, if_true]
  · intro s hs hsuf
    simp only [ParseTime, isEmpty_false_of_ne_nil (data_ne_nil_of_ne_empty hs), hsuf,
      Bool.false_eq_true, if_false]

/-- Witness for C6 with a concrete resolver sending every literal to
one hour, at `now = 5` ns. -/
theorem parseTime_spec_witness :
    ParseTime (fun _ => .ok 3600000000000) (fun _ _ => none) 5 (.str "1h-ago") =
      .ok (5 - 3600000000000) :=
  (parseTime_spec (fun _ => .ok 3600000000000) (fun _ _ => none) 5).2.1
    "1h-ago" 3600000000000 (by decide) rfl

/-- C7 (amended). `GetDuration` fails exactly when the start is the
explicitly empty string or when start/end fail to resolve through
`ParseTime`; an absent end defaults to the sampled "now"; on success it
returns `end.Sub(start)` — exactly `end - start` whenever the span fits
in `time.Duration`'s ±2^63 ns range, saturated beyond it — and a
negative span is a value, not an error. -/
theorem getDuration_spec (pd : String → Except String Int)
    (tp : String → String → Option Int) (nowS nowE : Int) (r : Request) :
    (r.Start = TimeVal.str "" →
      GetDuration pd tp nowS nowE r = .error "start time must be provided") ∧
    (∀ e, r.Start ≠ TimeVal.str "" → ParseTime pd tp nowS r.Start = .error e →
      GetDuration pd tp nowS nowE r = .error e) ∧
    (∀ tS e, r.Start ≠ TimeVal.str "" → ParseTime pd tp nowS r.Start = .ok tS →
      resolveEnd pd tp nowE r.End = .error e →
      GetDuration pd tp nowS nowE r = .error e) ∧
    (∀ tS tE, r.Start ≠ TimeVal.str "" → ParseTime pd tp nowS r.Start = .ok tS →
      resolveEnd pd tp nowE r.End = .ok tE →
      GetDuration pd tp nowS nowE r = .ok (timeSub tE tS)) ∧
    (r.End = none → resolveEnd pd tp nowE r.End = .ok nowE) ∧
    (∀ a b : Int, minDuration ≤ a - b → a - b ≤ maxDuration → timeSub a b = a - b) ∧
    ((∃ e, GetDuration pd tp nowS nowE r = .error e) ↔
      (r.Start = TimeVal.str "" ∨
       (∃ e, ParseTime pd tp nowS r.Start = .error e) ∨
       (∃ v e, r.End = some v ∧ ParseTime pd tp nowE v = .error e))) := by
  have h1 : r.Start = TimeVal.str "" →
      GetDuration pd tp nowS nowE r = .error "start time must be provided" := by
    intro h
    simp only [GetDuration, if_pos h]
  have h2 : ∀ e, r.Start ≠ TimeVal.str "" → ParseTime pd tp nowS r.Start = .error e →
      GetDuration pd tp nowS nowE r = .error e := by
    intro e hne hp
    simp only [GetDuration, if_neg hne, hp]
  have h3 : ∀ tS e, r.Start ≠ TimeVal.str "" → ParseTime pd tp nowS r.Start = .ok tS →
      resolveEnd pd tp nowE r.End = .error e →
      GetDuration pd tp nowS nowE r = .error e := by
    intro tS e hne hp hq
    simp only [GetDuration, if_neg hne, hp, hq]
  have h4 : ∀ tS tE, r.Start ≠ TimeVal.str "" → ParseTime pd tp nowS r.Start = .ok tS →
      resolveEnd pd tp nowE r.End = .ok tE →
      GetDuration pd tp nowS nowE r = .ok (timeSub tE tS) := by
    intro tS tE hne hp hq
    simp only [GetDuration, if_neg hne, hp, hq]
  have h5 : ∀ a b : Int, minDuration ≤ a - b → a - b ≤ maxDuration →
      timeSub a b = a - b := by
    intro a b hlo hhi
    simp only [timeSub, if_neg (not_lt.mpr hlo), if_neg (not_lt.mpr hhi)]
  refine ⟨h1, h2, h3, h4, fun h => by rw [h]; rfl, h5, ?_⟩
  constructor
  · rintro ⟨e, he⟩
    by_cases hS : r.Start = TimeVal.str ""
    · exact Or.inl hS
    · rcases hp : ParseTime pd tp nowS r.Start with eS | tS
      · exact Or.inr (Or.inl ⟨eS, rfl⟩)
      · rcases hq : resolveEnd pd tp nowE r.End with eE | tE
        · rcases hv : r.End with _ | v
          · rw [hv] at hq
            cases hq
          · rw [hv] at hq
            exact Or.inr (Or.inr ⟨v, eE, rfl, hq⟩)
        · rw [h4 tS tE hS hp hq] at he
          cases he
  · rintro (hS | ⟨e, he⟩ | ⟨v, e, hv, he⟩)
    · exact ⟨_, h1 hS⟩
    · by_cases hS : r.Start = TimeVal.str ""
      · exact ⟨_, h1 hS⟩
      · exact ⟨e, h2 e hS he⟩
    · by_cases hS : r.Start = TimeVal.str ""
      · exact ⟨_, h1 hS⟩
      · rcases hp : ParseTime pd tp nowS r.Start with eS | tS
        · exact ⟨eS, h2 eS hS hp⟩
        · refine ⟨e, h3 tS e hS hp ?_⟩
          rw [hv]
          exact he

/-- Witness for C7: an integer window, end before start, still a value
(and in range, so the saturating difference is the exact one). -/
theorem getDuration_spec_witness :
    GetDuration (fun _ => .error "pd") (fun _ _ => none) 0 0
      { Start := TimeVal.int 50, End := some (TimeVal.int 20) } =
      .ok (20 * nsPerSec - 50 * nsPerSec) := by
  have h := (getDuration_spec (fun _ => .error "pd") (fun _ _ => none) 0 0
      { Start := TimeVal.int 50, End := some (TimeVal.int 20) }).2.2.2.1
    (50 * nsPerSec) (20 * nsPerSec) (by decide) rfl rfl
  rw [h]
  rfl

/-- C7 counterexample. An integer start 0 with integer end 10^13 (epoch
seconds) spans 10^22 ns, beyond `time.Duration`'s range, so
`time.Time.Sub` saturates: `GetDuration` returns the maximal duration
2^63 - 1 ns, not `end - start`. -/
theorem getDuration_saturation_cex :
    GetDuration (fun _ => .error "pd") (fun _ _ => none) 0 0
      { Start := TimeVal.int 0, End := some (TimeVal.int 10000000000000) } =
      .ok maxDuration ∧
    maxDuration ≠ (10000000000000 : Int) * nsPerSec - 0 * nsPerSec := by
  exact ⟨by rfl, by decide⟩

/-- C5 (amended). `AutoDownsample` with a positive target `l` and a
resolvable window `cd`: when the implied bucket `cd / l` (int64
truncation) is below the 15 second floor the request is returned
unchanged, otherwise every query's downsample — whatever it was —
becomes `<int64((cd / l).Seconds())>s-avg`, the seconds obtained
through the float64 rounding of `Duration.Seconds` (`secondsInt64`),
which can exceed the whole-second floor by one for large buckets. -/
theorem autoDownsample_spec (pd : String → Except String Int)
    (tp : String → String → Option Int) (nowS nowE : Int) (l : Int) (r : Request)
    (cd : Int) (hl : 0 < l) (hcd : GetDuration pd tp nowS nowE r = .ok cd) :
    (cd.tdiv l < 15 * nsPerSec → AutoDownsample pd tp nowS nowE l r = .ok r) ∧
    (15 * nsPerSec ≤ cd.tdiv l →
      AutoDownsample pd tp nowS nowE l r =
        .ok { r with Queries := r.Queries.map fun q =>
          { q with Downsample := toString (secondsInt64 (cd.tdiv l)) ++ "s-avg" } }) := by
  have hne : l ≠ 0 := by omega
  constructor
  · intro h
    simp only [AutoDownsample, if_neg hne, hcd, if_pos h]
  · intro h
    simp only [AutoDownsample, if_neg hne, hcd, if_neg (not_lt.mpr h)]

/-- Witness for C5 at the spec's two instances: a 1 hour window with
target 4 gives `900s-avg` on every query; a 10 second window with
target 1000 is below the floor and unchanged. -/
theorem autoDownsample_spec_witness :
    AutoDownsample (fun _ => .error "pd") (fun _ _ => none) 0 0 4
      { Start := TimeVal.int 0, End := some (TimeVal.int 3600),
        Queries := [{ Aggregator := "sum", Metric := "cpu" }] } =
      .ok { Start := TimeVal.int 0, End := some (TimeVal.int 3600),
            Queries := [{ Aggregator := "sum", Metric := "cpu",
                          Downsample := "900s-avg" }] } ∧
    AutoDownsample (fun _ => .error "pd") (fun _ _ => none) 0 0 1000
      { Start := TimeVal.int 0, End := some (TimeVal.int 10),
        Queries := [{ Aggregator := "sum", Metric := "cpu" }] } =
      .ok { Start := TimeVal.int 0, End := some (TimeVal.int 10),
            Queries := [{ Aggregator := "sum", Metric := "cpu" }] } := by
  constructor
  · have h := (autoDownsample_spec (fun _ => .error "pd") (fun _ _ => none) 0 0 4
      { Start := TimeVal.int 0, End := some (TimeVal.int 3600),
        Queries := [{ Aggregator := "sum", Metric := "cpu" }] }
      ((3600 : Int) * nsPerSec) (by decide) rfl).2 (by decide)
    rw [h]
    rfl
  · have h := (autoDownsample_spec (fun _ => .error "pd") (fun _ _ => none) 0 0 1000
      { Start := TimeVal.int 0, End := some (TimeVal.int 10),
        Queries := [{ Aggregator := "sum", Metric := "cpu" }] }
      ((10 : Int) * nsPerSec) (by decide) rfl).1 (by decide)
    rw [h]

set_option maxRecDepth 16384 in
/-- C5 counterexample. A window of 365 days plus 999999999 ns with
target 1: the bucket's whole-second floor is 31536000, but
`int64(d.Seconds())` passes through float64, where the sum of the
second part and the rounded fraction 0.999999999 rounds up to
31536001.0 (half an ulp at this magnitude exceeds 1 ns), so the
program writes `31536001s-avg`, not the floor. -/
theorem autoDownsample_float_cex :
    AutoDownsample (fun _ => .ok 31536000999999999) (fun _ _ => none) 0 0 1
      { Start := TimeVal.str "1y-ago",
        Queries := [{ Aggregator := "sum", Metric := "cpu" }] } =
      .ok { Start := TimeVal.str "1y-ago",
            Queries := [{ Aggregator := "sum", Metric := "cpu",
                          Downsample := "31536001s-avg" }] } ∧
    ((31536000999999999 : Int).tdiv 1).tdiv nsPerSec = 31536000 ∧
    (31536001 : Int) ≠ 31536000 := by
  exact ⟨by rfl, by decide, by decide⟩

/-- Witness for C9 at concrete tag sets. -/
theorem tagSet_subset_spec_witness :
    TagSet.Subset [("a", "1"), ("b", "2")] [("b", "2")] = true ∧
    TagSet.Subset [("a", "1"), ("b", "2")] [("a", "9")] = false :=
  ⟨(tagSet_subset_spec [("a", "1"), ("b", "2")] [("b", "2")]).2.1 (by decide) (by decide),
   (tagSet_subset_spec [("a", "1"), ("b", "2")] [("a", "9")]).2.2 "a" "9" "1"
     (by decide) (by decide) (by decide)⟩

theorem lookup_cons_self {α β : Type} [BEq α] [LawfulBEq α] (k : α) (v : β)
    (st : List (α × β)) : List.lookup k ((k, v) :: st) = some v := by
  rw [List.lookup_cons, beq_self_eq_true]

theorem cacheQuery_twice (marshal : Request → Except String String)
    (transport : Nat → Request → QueryResult) (st : CacheState) (n : Nat)
    (r1 r2 : Request) (h : marshal r1 = marshal r2) :
    ((cacheQuery marshal transport (cacheQuery marshal transport st n r1).2.1
        (cacheQuery marshal transport st n r1).2.2 r2).2.2 - n ≤ 1) ∧
    (cacheQuery marshal transport (cacheQuery marshal transport st n r1).2.1
        (cacheQuery marshal transport st n r1).2.2 r2).1 =
      (cacheQuery marshal transport st n r1).1 := by
  rcases hm : marshal r1 with e | s
  · have hm2 : marshal r2 = .error e := by rw [← h, hm]
    simp only [cacheQuery, hm, hm2]
    exact ⟨by omega, trivial⟩
  · have hm2 : marshal r2 = .ok s := by rw [← h, hm]
    rcases hl : st.lookup s with _ | v
    · simp only [cacheQuery, hm, hm2, hl, lookup_cons_self]
      exact ⟨by omega, trivial⟩
    · simp only [cacheQuery, hm, hm2, hl]
      exact ⟨by omega, trivial⟩

/-- C2. Two `Cache.Query` calls whose requests have the same JSON
serialization (`marshal r1 = marshal r2`, including the failure case)
invoke the transport at most once between them — the invocation counter
grows by at most one — and the second call returns exactly the
result/error pair the first one returned (and stored), without
re-executing the query. -/
theorem cache_query_idempotent (marshal : Request → Except String String)
    (transport : Nat → Request → QueryResult) (st : CacheState) (n : Nat)
    (r1 r2 : Request) (h : marshal r1 = marshal r2) :
    ((cacheQuery marshal transport (cacheQuery marshal transport st n r1).2.1
        (cacheQuery marshal transport st n r1).2.2 r2).2.2 - n ≤ 1) ∧
    (cacheQuery marshal transport (cacheQuery marshal transport st n r1).2.1
        (cacheQuery marshal transport st n r1).2.2 r2).1 =
      (cacheQuery marshal transport st n r1).1 :=
  cacheQuery_twice marshal transport st n r1 r2 h

/-- Witness for C2 with a transport that answers differently on every
invocation: still at most one invocation, identical replies. -/
theorem cache_query_idempotent_witness :
    ((cacheQuery (fun _ => .ok "key") (fun n _ => ([], some (toString n)))
        (cacheQuery (fun _ => .ok "key") (fun n _ => ([], some (toString n)))
          [] 0 { Start := TimeVal.int 0 }).2.1
        (cacheQuery (fun _ => .ok "key") (fun n _ => ([], some (toString n)))
          [] 0 { Start := TimeVal.int 0 }).2.2
        { Start := TimeVal.int 0 }).2.2 - 0 ≤ 1) ∧
    (cacheQuery (fun _ => .ok "key") (fun n _ => ([], some (toString n)))
        (cacheQuery (fun _ => .ok "key") (fun n _ => ([], some (toString n)))
          [] 0 { Start := TimeVal.int 0 }).2.1
        (cacheQuery (fun _ => .ok "key") (fun n _ => ([], some (toString n)))
          [] 0 { Start := TimeVal.int 0 }).2.2
        { Start := TimeVal.int 0 }).1 =
      (cacheQuery (fun _ => .ok "key") (fun n _ => ([], some (toString n)))
        [] 0 { Start := TimeVal.int 0 }).1 :=
  cache_query_idempotent (fun _ => .ok "key") (fun n _ => ([], some (toString n)))
    [] 0 { Start := TimeVal.int 0 } { Start := TimeVal.int 0 } rfl

/-- C1 (amended). A request whose start is a `-ago` relative expression
and whose end is absent, pushed through the same `DateCache` (fixed
reference `cnow`) at two different real-world instants `t1`, `t2`,
normalizes both times to the identical absolute epoch-second window
(start `(cnow - d).Unix`, end `cnow.Unix` — independent of `t1`, `t2`),
hence to the same cache key; between the two calls the transport runs
at most once and both calls return the same result. Each evaluation's
two internal `time.Now()` samples (one inside `ParseTime` for the
start, one as the default end) are taken to coincide — `t1 t1` and
`t2 t2` — and the reference-to-instant offsets must fit
`time.Duration`'s ±2^63 ns range, where `time.Time.Sub` is exact. -/
theorem dateCache_relative_window (pd : String → Except String Int)
    (tp : String → String → Option Int) (marshal : Request → Except String String)
    (transport : Nat → Request → QueryResult) (cnow t1 t2 : Int)
    (st : CacheState) (n : Nat) (r : Request) (s : String) (d : Int)
    (hS : r.Start = TimeVal.str s)
    (hsuf : agoChars.isSuffixOf s.data = true)
    (hpd : pd (String.mk (s.data.take (s.data.length - 4))) = .ok d)
    (hE : r.End = none)
    (hr1lo : minDuration ≤ cnow - t1) (hr1hi : cnow - t1 ≤ maxDuration)
    (hr2lo : minDuration ≤ cnow - t2) (hr2hi : cnow - t2 ≤ maxDuration) :
    (dateNormalize pd tp cnow t1 t1 r =
      .ok { r with Start := TimeVal.int (unixOf (cnow - d)),
                   End := some (TimeVal.int (unixOf cnow)) } ∧
     dateNormalize pd tp cnow t2 t2 r =
      .ok { r with Start := TimeVal.int (unixOf (cnow - d)),
                   End := some (TimeVal.int (unixOf cnow)) }) ∧
    ((dateCacheQuery pd tp marshal transport cnow t2 t2
        (dateCacheQuery pd tp marshal transport cnow t1 t1 st n r).2.1
        (dateCacheQuery pd tp marshal transport cnow t1 t1 st n r).2.2 r).2.2 - n ≤ 1) ∧
    (dateCacheQuery pd tp marshal transport cnow t2 t2
        (dateCacheQuery pd tp marshal transport cnow t1 t1 st n r).2.1
        (dateCacheQuery pd tp marshal transport cnow t1 t1 st n r).2.2 r).1 =
      (dateCacheQuery pd tp marshal transport cnow t1 t1 st n r).1 := by
  have norm : ∀ t : Int, minDuration ≤ cnow - t → cnow - t ≤ maxDuration →
      dateNormalize pd tp cnow t t r =
      .ok { r with Start := TimeVal.int (unixOf (cnow - d)),
                   End := some (TimeVal.int (unixOf cnow)) } := by
    intro t hlo hhi
    have hPT : ParseTime pd tp t r.Start = .ok (t + -d) := by
      rw [hS]
      simp only [ParseTime, suffix_ago_ne_nil hsuf, hsuf, hpd, Bool.false_eq_true,
        if_false, if_true]
    have hRE : resolveEnd pd tp t r.End = .ok t := by
      rw [hE]
      rfl
    simp only [dateNormalize, hPT, hRE]
    have hts : timeSub cnow t = cnow - t := by
      simp only [timeSub, if_neg (not_lt.mpr hlo), if_neg (not_lt.mpr hhi)]
    rw [hts]
    have e1 : t + -d + (cnow - t) = cnow - d := by ring
    have e2 : t + (cnow - t) = cnow := by ring
    rw [e1, e2]
  refine ⟨⟨norm t1 hr1lo hr1hi, norm t2 hr2lo hr2hi⟩, ?_, ?_⟩
  · simp only [dateCacheQuery, norm t1 hr1lo hr1hi, norm t2 hr2lo hr2hi]
    exact (cacheQuery_twice marshal transport st n _ _ rfl).1
  · simp only [dateCacheQuery, norm t1 hr1lo hr1hi, norm t2 hr2lo hr2hi]
    exact (cacheQuery_twice marshal transport st n _ _ rfl).2

/-- Witness for C1: the same "1h-ago" request evaluated at two wildly
different instants. -/
theorem dateCache_relative_window_witness :
    (dateNormalize (fun _ => .ok 3600000000000) (fun _ _ => none)
        7000000000000 42 42 { Start := TimeVal.str "1h-ago" } =
      .ok { Start := TimeVal.int (unixOf (7000000000000 - 3600000000000)),
            End := some (TimeVal.int (unixOf 7000000000000)) } ∧
     dateNormalize (fun _ => .ok 3600000000000) (fun _ _ => none)
        7000000000000 99999 99999 { Start := TimeVal.str "1h-ago" } =
      .ok { Start := TimeVal.int (unixOf (7000000000000 - 3600000000000)),
            End := some (TimeVal.int (unixOf 7000000000000)) }) ∧
    ((dateCacheQuery (fun _ => .ok 3600000000000) (fun _ _ => none)
        (fun _ => .ok "key") (fun n _ => ([], some (toString n)))
        7000000000000 99999 99999
        (dateCacheQuery (fun _ => .ok 3600000000000) (fun _ _ => none)
          (fun _ => .ok "key") (fun n _ => ([], some (toString n)))
          7000000000000 42 42 [] 0 { Start := TimeVal.str "1h-ago" }).2.1
        (dateCacheQuery (fun _ => .ok 3600000000000) (fun _ _ => none)
          (fun _ => .ok "key") (fun n _ => ([], some (toString n)))
          7000000000000 42 42 [] 0 { Start := TimeVal.str "1h-ago" }).2.2
        { Start := TimeVal.str "1h-ago" }).2.2 - 0 ≤ 1) ∧
    (dateCacheQuery (fun _ => .ok 3600000000000) (fun _ _ => none)
        (fun _ => .ok "key") (fun n _ => ([], some (toString n)))
        7000000000000 99999 99999
        (dateCacheQuery (fun _ => .ok 3600000000000) (fun _ _ => none)
          (fun _ => .ok "key") (fun n _ => ([], some (toString n)))
          7000000000000 42 42 [] 0 { Start := TimeVal.str "1h-ago" }).2.1
        (dateCacheQuery (fun _ => .ok 3600000000000) (fun _ _ => none)
          (fun _ => .ok "key") (fun n _ => ([], some (toString n)))
          7000000000000 42 42 [] 0 { Start := TimeVal.str "1h-ago" }).2.2
        { Start := TimeVal.str "1h-ago" }).1 =
      (dateCacheQuery (fun _ => .ok 3600000000000) (fun _ _ => none)
        (fun _ => .ok "key") (fun n _ => ([], some (toString n)))
        7000000000000 42 42 [] 0 { Start := TimeVal.str "1h-ago" }).1 :=
  dateCache_relative_window (fun _ => .ok 3600000000000) (fun _ _ => none)
    (fun _ => .ok "key") (fun n _ => ([], some (toString n)))
    7000000000000 42 99999 [] 0 { Start := TimeVal.str "1h-ago" }
    "1h-ago" 3600000000000 rfl (by decide) rfl rfl
    (by decide) (by decide) (by decide) (by decide)

/-- C1 counterexample. The program samples `time.Now()` twice per
evaluation — once inside `ParseTime` while resolving the start, once as
the default for the absent end — and a 1 ns skew between the two
samples of one call can shift the normalized start across a second
boundary. The same "1h-ago" request with absent end, against reference
3600 s, normalizes to start 0 when a call's two samples coincide but to
start -1 when the start-side sample lags 1 ns behind the end-side one:
the epoch-second fields differ, a start-distinguishing serializer
yields two distinct cache keys, and the transport runs twice. -/
theorem dateCache_skew_cex :
    (dateNormalize (fun _ => .ok 3600000000000) (fun _ _ => none)
        3600000000000 5 5 { Start := TimeVal.str "1h-ago" } =
      .ok { Start := TimeVal.int 0, End := some (TimeVal.int 3600) }) ∧
    (dateNormalize (fun _ => .ok 3600000000000) (fun _ _ => none)
        3600000000000 4 5 { Start := TimeVal.str "1h-ago" } =
      .ok { Start := TimeVal.int (-1), End := some (TimeVal.int 3600) }) ∧
    TimeVal.int 0 ≠ TimeVal.int (-1) ∧
    (dateCacheQuery (fun _ => .ok 3600000000000) (fun _ _ => none)
        (fun r => .ok (match r.Start with | TimeVal.int i => toString i | _ => "x"))
        (fun n _ => ([], some (toString n)))
        3600000000000 4 5
        (dateCacheQuery (fun _ => .ok 3600000000000) (fun _ _ => none)
          (fun r => .ok (match r.Start with | TimeVal.int i => toString i | _ => "x"))
          (fun n _ => ([], some (toString n)))
          3600000000000 5 5 [] 0 { Start := TimeVal.str "1h-ago" }).2.1
        (dateCacheQuery (fun _ => .ok 3600000000000) (fun _ _ => none)
          (fun r => .ok (match r.Start with | TimeVal.int i => toString i | _ => "x"))
          (fun n _ => ([], some (toString n)))
          3600000000000 5 5 [] 0 { Start := TimeVal.str "1h-ago" }).2.2
        { Start := TimeVal.str "1h-ago" }).2.2 = 2 := by
  exact ⟨by rfl, by rfl, by decide, by rfl⟩

/-- C10 (amended). When start and end both resolve, and the offset from
the resolved end to the reference fits `time.Duration`'s ±2^63 ns range
(`time.Time.Sub` saturates beyond it, leaving the end unpinned),
`DateCache.Query`'s normalization pins the request's end to the
reference instant — `End` becomes `cnow` in epoch seconds — and sets
`Start` to the reference minus the originally resolved window
`e0 - s0`, shifted at nanosecond precision and only then truncated to
epoch seconds. (The epoch-second difference `End - Start` therefore
need not equal the window truncated to whole seconds; each endpoint
truncates separately.) -/
theorem dateNormalize_window (pd : String → Except String Int)
    (tp : String → String → Option Int) (cnow wS wE : Int) (r : Request)
    (s0 e0 : Int) (hs : ParseTime pd tp wS r.Start = .ok s0)
    (he : resolveEnd pd tp wE r.End = .ok e0)
    (hlo : minDuration ≤ cnow - e0) (hhi : cnow - e0 ≤ maxDuration) :
    dateNormalize pd tp cnow wS wE r =
      .ok { r with Start := TimeVal.int (unixOf (cnow - (e0 - s0))),
                   End := some (TimeVal.int (unixOf cnow)) } := by
  simp only [dateNormalize, hs, he]
  have hts : timeSub cnow e0 = cnow - e0 := by
    simp only [timeSub, if_neg (not_lt.mpr hlo), if_neg (not_lt.mpr hhi)]
  rw [hts]
  have e1 : s0 + (cnow - e0) = cnow - (e0 - s0) := by ring
  have e2 : e0 + (cnow - e0) = cnow := by ring
  rw [e1, e2]

/-- Witness for C10's amended theorem: a 7-second window pinned to
reference 0. -/
theorem dateNormalize_window_witness :
    dateNormalize (fun _ => .error "pd") (fun _ _ => none) 0 5 5
      { Start := TimeVal.int 3, End := some (TimeVal.int 10) } =
      .ok { Start := TimeVal.int (unixOf (0 - (10 * nsPerSec - 3 * nsPerSec))),
            End := some (TimeVal.int (unixOf 0)) } :=
  dateNormalize_window (fun _ => .error "pd") (fun _ _ => none) 0 5 5
    { Start := TimeVal.int 3, End := some (TimeVal.int 10) }
    (3 * nsPerSec) (10 * nsPerSec) rfl rfl (by decide) (by decide)

/-- C10 counterexample. First, truncation: a 900 ms window ("900ms-ago",
absent end, duration resolver returning 0.9 s) against a reference
instant with a 0.2 s fractional part resolves to `end - start = 9·10^8`
ns (0 whole seconds), but the normalized epoch-second fields are
`Start = -1`, `End = 0`, whose difference is 1 — not the originally
resolved window truncated to whole seconds, refuting the claim's second
conjunct. Second, saturation: an end of 10^13 epoch seconds lies more
than 2^63 ns past the reference 0, `time.Time.Sub` saturates, and the
normalized `End` is 9990776627963 — not the reference's epoch seconds —
refuting even the claim's first conjunct for far-away ends. -/
theorem dateNormalize_truncation_cex :
    (dateNormalize (fun _ => .ok 900000000) (fun _ _ => none) 200000000
        1000000000000 1000000000000
        { Start := TimeVal.str "900ms-ago", End := none } =
      .ok { Start := TimeVal.int (-1), End := some (TimeVal.int 0) }) ∧
    ((0 : Int) - (-1) ≠
      ((1000000000000 : Int) - (1000000000000 - 900000000)).tdiv nsPerSec) ∧
    (dateNormalize (fun _ => .error "pd") (fun _ _ => none) 0 5 5
        { Start := TimeVal.int 0, End := some (TimeVal.int 10000000000000) } =
      .ok { Start := TimeVal.int (-9223372037),
            End := some (TimeVal.int 9990776627963) }) ∧
    (9990776627963 : Int) ≠ unixOf 0 := by
  exact ⟨by rfl, by decide, by rfl, by decide⟩

/-- C8 counterexample. `sum:rate,:cpu` parses with `Counter = true`
(the rate spec carries a second comma field), but `Query.String`
serializes only the bare `rate:` token, so re-parsing its serialization
yields `Counter = false`: the round trip does not restore every field. -/
theorem parseQuery_roundtrip_cex :
    ParseQuery "sum:rate,:cpu" =
      .ok ⟨"sum", "cpu", true, ⟨true, 0, 0⟩, "", []⟩ ∧
    queryToString ⟨"sum", "cpu", true, ⟨true, 0, 0⟩, "", []⟩ = "sum:rate:cpu" ∧
    ParseQuery "sum:rate:cpu" =
      .ok ⟨"sum", "cpu", true, ⟨false, 0, 0⟩, "", []⟩ ∧
    (⟨true, 0, 0⟩ : RateOptions) ≠ ⟨false, 0, 0⟩ :=
  ⟨rfl, rfl, rfl, by decide⟩

/-- Witness for C8's amended round trip at the counterexample's query. -/
theorem parseQuery_toString_roundtrip_witness :
    ParseQuery (queryToString ⟨"sum", "cpu", true, ⟨true, 0, 0⟩, "", []⟩) =
      .ok ⟨"sum", "cpu", true, ⟨false, 0, 0⟩, "", []⟩ :=
  parseQuery_toString_roundtrip "sum:rate,:cpu"
    ⟨"sum", "cpu", true, ⟨true, 0, 0⟩, "", []⟩ rfl

/-- C3. The exact spec instance `sum:rate{counter,100,0}:cpu`: the code
comma-splits the raw `rate{counter,100,0}` capture without stripping
the braces, so the counter-max field reads `0}` and `strconv.ParseInt`
fails — `ParseQuery` returns that parse error instead of the
documented rate options (counter mode, max 100, reset 0). -/
theorem parseQuery_counter_braces_error :
    ParseQuery "sum:rate\x7bcounter,100,0\x7d:cpu" =
      .error "strconv.ParseInt: parsing \"0\x7d\": invalid syntax" := by
  rfl

end OpenTsdb
